import Mathlib

/-!
Verification development for the json2rust shape-based type-evolution engine
(`json2rust-evolution` crate: `shape.rs`, `optimizer.rs`, `evolution.rs`).

Rust strings are modelled as `List Char` (the sources only manipulate them
through prefix/suffix tests, slicing at ASCII boundaries, trimming, lowercasing
and substring replacement, for which byte indexing and char indexing agree on
the ASCII literals involved).  Rust `HashMap`/`HashSet` state is modelled by
association lists in first-insertion order; where the Rust code *iterates* over
a hash container (an order the Rust standard library does not stabilise) the
iteration order is made an explicit parameter so that order dependence can be
stated and proved.  `anyhow::Result` values in this code never carry errors
(no `Err` is ever constructed), so fallible signatures are embedded as plain
values; the recursion between struct expansion and untagged-enum expansion is
embedded with an explicit fuel parameter (`none` = fuel exhausted, mirroring
the unbounded recursion the Rust code would perform on cyclic type tables).
-/

/-- Character-list model of a Rust `String`. -/
abbrev Str := List Char

/-- Drop `n` characters from the right end (Rust slice `[..len-n]`). -/
def strDropRight (s : Str) (n : Nat) : Str := s.take (s.length - n)

/-- Rust `str::trim` (whitespace from both ends). -/
def strTrim (s : Str) : Str :=
  ((s.dropWhile Char.isWhitespace).reverse.dropWhile Char.isWhitespace).reverse

/-- Rust `str::to_lowercase` (ASCII-faithful). -/
def strToLower (s : Str) : Str := s.map Char.toLower

/-- Rust `str::contains(pattern)`: some position starts an occurrence of `pat`. -/
def strContains (s pat : Str) : Bool :=
  (List.range (s.length + 1)).any (fun i => pat.isPrefixOf (s.drop i))

/-- Fuel-driven worker for `strReplace`; fuel `s.length` always suffices. -/
def strReplaceGo : Nat → Str → Str → Str → Str
  | 0, s, _, _ => s
  | fuel + 1, s, pat, rep =>
    match s with
    | [] => []
    | c :: rest =>
      if pat ≠ [] ∧ pat.isPrefixOf (c :: rest) then
        rep ++ strReplaceGo fuel ((c :: rest).drop pat.length) pat rep
      else
        c :: strReplaceGo fuel rest pat rep

/-- Rust `str::replace`: replace non-overlapping occurrences left to right. -/
def strReplace (s pat rep : Str) : Str := strReplaceGo s.length s pat rep

/-- Fuel-driven worker for `trimEndMatches`. -/
def trimEndMatchesGo : Nat → Str → Str → Str
  | 0, s, _ => s
  | fuel + 1, s, pat =>
    if pat ≠ [] ∧ pat.isSuffixOf s then trimEndMatchesGo fuel (strDropRight s pat.length) pat
    else s

/-- Rust `str::trim_end_matches`: strip every trailing repetition of `pat`. -/
def trimEndMatches (s pat : Str) : Str := trimEndMatchesGo s.length s pat

/-- Decimal rendering of a `Nat`, as used by Rust `format!` for indices. -/
def natStr (n : Nat) : Str := (toString n).data

/-- The string literal `"Option<"`. -/
def optPlain : Str := "Option<".data

/-- The string literal `"Option <"`. -/
def optSpaced : Str := "Option <".data

/-- Model of `shape.rs` `ShapeField`. -/
structure ShapeField where
  name : Str
  field_type : Str
  is_required : Bool
deriving DecidableEq

/-- Model of `shape.rs` `ShapeMetadata`. -/
structure ShapeMetadata where
  original_enum_field_name : Option Str
  source_enum_type : Option Str
deriving DecidableEq

/-- Model of `shape.rs` `Shape`. -/
structure Shape where
  fields : List ShapeField
  metadata : ShapeMetadata
deriving DecidableEq

/-- `ShapeMetadata::new()`. -/
def metadataNew : ShapeMetadata := { original_enum_field_name := none, source_enum_type := none }

/-- Model of `parser.rs` `FieldInfo`. -/
structure FieldInfo where
  name : Str
  field_type : Str
  is_optional : Bool
deriving DecidableEq

/-- Model of `parser.rs` `VariantInfo`. -/
structure VariantInfo where
  name : Str
  fields : Option (List FieldInfo)
deriving DecidableEq

/-- Model of `parser.rs` `EnumInfo`. -/
structure EnumInfo where
  variants : List VariantInfo
  is_untagged : Bool
deriving DecidableEq

/-- Model of `parser.rs` `TypeKind`. -/
inductive TypeKind where
  | structKind (fields : List FieldInfo)
  | enumKind (info : EnumInfo)
deriving DecidableEq

/-- Model of `parser.rs` `TypeInfo` (the byte span is irrelevant to the core). -/
structure TypeInfo where
  name : Str
  kind : TypeKind
deriving DecidableEq

/-- The known-declarations map, in insertion order. -/
abbrev KnownTypes := List (Str × TypeInfo)

/-- Model of `optimizer.rs` `ShapeVariant`. -/
structure ShapeVariant where
  name : Str
  fields : List ShapeField
deriving DecidableEq

/-- Model of `generator.rs` `EvolutionResult`. -/
inductive EvolutionResult where
  | simpleStruct (name : Str) (fields : List ShapeField)
  | complexEnum (name : Str) (common_fields : List ShapeField) (variants : List ShapeVariant)
  | structWithExtendedEnum (struct_name : Str) (struct_fields : List ShapeField)
      (enum_name : Str) (new_enum_variants : List ShapeVariant)
deriving DecidableEq

/-- `shape.rs` `unwrap_option_type`: strip one `Option < _ >` wrapper
(the quote-formatted spelling with a space, 8 chars, trailing `>`). -/
def unwrap_option_type (t : Str) : Str :=
  if optSpaced.isPrefixOf t ∧ ['>'].isSuffixOf t then strTrim (strDropRight (t.drop 8) 1)
  else t

/-- Look up a type name and return its enum info when it is a known untagged enum
(the guard in `expand_struct_shapes`). -/
def lookupUntaggedEnum (kt : KnownTypes) (t : Str) : Option EnumInfo :=
  match (kt.find? (fun p => p.1 = t)).map (fun p => p.2) with
  | some ti =>
    match ti.kind with
    | .enumKind info => if info.is_untagged then some info else none
    | _ => none
  | none => none

/-- The effective type a field is checked against the known-types table with:
optional fields are unwrapped first (`expand_struct_shapes`, field loop head). -/
def effFieldType (f : FieldInfo) : Str :=
  if f.is_optional then unwrap_option_type f.field_type else f.field_type

/-- The `(i >> pos) & 1 == 1` test from the optional-combination loop. -/
def bitSet (i pos : Nat) : Bool := (i >>> pos) &&& 1 == 1

/-- Indices of the not-required fields of a base shape
(`optional_field_indices` in `expand_struct_shapes`). -/
def optionalFieldIndices (fields : List ShapeField) : List Nat :=
  (fields.enum.filter (fun p => !p.2.is_required)).map (fun p => p.1)

/-- Contribution of one optional base field to combination number `i`:
included (unwrapped, required) when its bit is set, absent otherwise. -/
def includeOptionalField (optIdx : List Nat) (i idx : Nat) (field : ShapeField) :
    List ShapeField :=
  match optIdx.findIdx? (fun x => x == idx) with
  | some pos =>
    if bitSet i pos then
      [{ name := field.name, field_type := unwrap_option_type field.field_type,
         is_required := true }]
    else []
  | none => []

/-- The field list of combination number `i` of a base shape: required fields
kept as-is, optional fields included according to the bits of `i`. -/
def subsetFields (fields : List ShapeField) (optIdx : List Nat) (i : Nat) :
    List ShapeField :=
  fields.enum.flatMap (fun p =>
    if p.2.is_required then [p.2] else includeOptionalField optIdx i p.1 p.2)

/-- Second phase of `expand_struct_shapes`: enumerate all combinations of the
optional fields of one accumulated base shape (`2^k` shapes, or the base shape
unchanged when it has no optional field). -/
def expandOptionalCombos (base : Shape) : List Shape :=
  let optIdx := optionalFieldIndices base.fields
  if optIdx.isEmpty then [base]
  else
    (List.range (1 <<< optIdx.length)).map (fun i =>
      { fields := subsetFields base.fields optIdx i, metadata := base.metadata })

/-- The synthetic discriminator field a tagged-enum variant contributes
(`expand_enum_shapes`, non-untagged case). -/
def tagField (variantName : Str) : ShapeField :=
  { name := "tag".data, field_type := '"' :: (variantName ++ ['"']), is_required := true }

/-- One inlined untagged-enum variant appended to a base shape, with provenance
metadata stamped (`expand_struct_shapes`, untagged-enum field branch). -/
def inlineUntaggedShape (base : Shape) (fieldName ft : Str) (is_optional : Bool)
    (us : Shape) : Shape :=
  { fields := base.fields ++ us.fields.map (fun vf =>
      { name := vf.name, field_type := vf.field_type,
        is_required := !is_optional && vf.is_required }),
    metadata := { original_enum_field_name := some fieldName, source_enum_type := some ft } }

mutual

/-- `shape.rs` `ShapeExpander::expand_struct_shapes`, with explicit fuel for
the mutual recursion through untagged-enum inlining. -/
def expand_struct_shapes : Nat → KnownTypes → List FieldInfo → Option (List Shape)
  | 0, _, _ => none
  | fuel + 1, kt, fields =>
    match expandFieldsGo fuel kt fields [{ fields := [], metadata := metadataNew }] with
    | none => none
    | some base_shapes => some (base_shapes.flatMap expandOptionalCombos)

/-- The field-folding loop of `expand_struct_shapes` (first phase): walk the
fields in order, inlining known untagged enums and appending plain fields to
every accumulated base shape. -/
def expandFieldsGo : Nat → KnownTypes → List FieldInfo → List Shape → Option (List Shape)
  | _, _, [], acc => some acc
  | 0, _, _ :: _, _ => none
  | fuel + 1, kt, field :: rest, acc =>
    let ft := effFieldType field
    match lookupUntaggedEnum kt ft with
    | some info =>
      match expand_enum_shapes fuel kt info.variants true with
      | none => none
      | some untagged_shapes =>
        expandFieldsGo fuel kt rest (acc.flatMap (fun base =>
          (if field.is_optional then [base] else []) ++
          untagged_shapes.map (inlineUntaggedShape base field.name ft field.is_optional)))
    | none =>
      expandFieldsGo fuel kt rest (acc.map (fun s =>
        { s with fields := s.fields ++
            [{ name := field.name, field_type := field.field_type,
               is_required := !field.is_optional }] }))

/-- `shape.rs` `ShapeExpander::expand_enum_shapes`. -/
def expand_enum_shapes : Nat → KnownTypes → List VariantInfo → Bool → Option (List Shape)
  | _, _, [], _ => some []
  | 0, _, _ :: _, _ => none
  | fuel + 1, kt, v :: rest, is_untagged =>
    match v.fields with
    | some vf =>
      match expand_struct_shapes fuel kt vf with
      | none => none
      | some vshapes =>
        match expand_enum_shapes fuel kt rest is_untagged with
        | none => none
        | some more =>
          some ((vshapes.map (fun s =>
            if is_untagged then s
            else { s with fields := tagField v.name :: s.fields })) ++ more)
    | none =>
      match expand_enum_shapes fuel kt rest is_untagged with
      | none => none
      | some more =>
        some ((if is_untagged then []
               else [{ fields := [tagField v.name], metadata := metadataNew }]) ++ more)

end

/-- Default shape standing for an (unreachable) out-of-bounds index access. -/
def dfltShape : Shape := { fields := [], metadata := metadataNew }

/-- Default variant standing for an (unreachable) out-of-bounds index access. -/
def dfltVariant : ShapeVariant := { name := [], fields := [] }

/-- `optimizer.rs` `choose_better_field_type`: pick the better of two fields
with the same name (match arms translated in order). -/
def choose_better_field_type (f1 f2 : ShapeField) : ShapeField :=
  if f1.field_type = f2.field_type then f1
  else if f1.field_type = "i32".data ∧ f2.field_type = "i64".data then f1
  else if f1.field_type = "i64".data ∧ f2.field_type = "i32".data then f2
  else if f1.field_type = "i16".data ∧ (f2.field_type = "i32".data ∨ f2.field_type = "i64".data) then f1
  else if (f1.field_type = "i32".data ∨ f1.field_type = "i64".data) ∧ f2.field_type = "i16".data then f2
  else if f1.field_type = "u32".data ∧ f2.field_type = "u64".data then f1
  else if f1.field_type = "u64".data ∧ f2.field_type = "u32".data then f2
  else if f1.field_type = "u16".data ∧ (f2.field_type = "u32".data ∨ f2.field_type = "u64".data) then f1
  else if (f1.field_type = "u32".data ∨ f1.field_type = "u64".data) ∧ f2.field_type = "u16".data then f2
  else if f1.is_required ∧ ¬ f2.is_required then f1
  else if ¬ f1.is_required ∧ f2.is_required then f2
  else f1

/-- Lookup in an association list keyed by strings (HashMap content model). -/
def lookupA {β : Type} (l : List (Str × β)) (n : Str) : Option β :=
  (l.find? (fun p => p.1 = n)).map (fun p => p.2)

/-- `*field_counts.entry(name).or_insert(0) += 1` on the association-list model. -/
def bumpCount (counts : List (Str × Nat)) (n : Str) : List (Str × Nat) :=
  if counts.any (fun p => p.1 = n) then
    counts.map (fun p => if p.1 = n then (p.1, p.2 + 1) else p)
  else counts ++ [(n, 1)]

/-- The `field_info` update of `find_common_fields`: keep the better of the
stored field and the newly seen one. -/
def updateFieldInfo (info : List (Str × ShapeField)) (n : Str) (f : ShapeField) :
    List (Str × ShapeField) :=
  match lookupA info n with
  | some e => info.map (fun p => if p.1 = n then (p.1, choose_better_field_type e f) else p)
  | none => info ++ [(n, f)]

/-- Per-shape inner loop of `find_common_fields`: each distinct field name of
the shape (first occurrence wins, via `seen_in_shape`) bumps its count and
updates the stored field. -/
def processShapeFields :
    List ShapeField → List Str → List (Str × Nat) × List (Str × ShapeField) →
    List (Str × Nat) × List (Str × ShapeField)
  | [], _, st => st
  | f :: rest, seen, st =>
    if f.name ∈ seen then processShapeFields rest seen st
    else processShapeFields rest (f.name :: seen) (bumpCount st.1 f.name, updateFieldInfo st.2 f.name f)

/-- The final `field_counts`/`field_info` maps of `find_common_fields`,
in first-insertion order. -/
def fcfState (shapes : List Shape) : List (Str × Nat) × List (Str × ShapeField) :=
  shapes.foldl (fun st s => processShapeFields s.fields [] st) ([], [])

/-- `optimizer.rs` `find_common_fields` with the `HashMap` iteration order made
explicit: collect, in the order `order` enumerates the map keys, the fields
whose count equals the number of shapes. -/
def find_common_fields_ordered (shapes : List Shape) (order : List Str) : List ShapeField :=
  let st := fcfState shapes
  (order.filter (fun n => lookupA st.1 n = some shapes.length)).filterMap (fun n => lookupA st.2 n)

/-- `optimizer.rs` `find_common_fields`, enumerating the count map in
first-insertion order (one of the orders a `HashMap` iteration can produce). -/
def find_common_fields (shapes : List Shape) : List ShapeField :=
  find_common_fields_ordered shapes ((fcfState shapes).1.map (fun p => p.1))

/-- `optimizer.rs` `remove_common_fields`. -/
def remove_common_fields (shapes : List Shape) (common : List ShapeField) : List Shape :=
  shapes.map (fun s =>
    { s with fields := s.fields.filter (fun f => ¬ common.any (fun c => c.name = f.name)) })

/-- `optimizer.rs` `count_field_differences`: size of the symmetric difference
of the two field-name sets. -/
def count_field_differences (s1 s2 : Shape) : Nat :=
  let n1 := (s1.fields.map (fun f => f.name)).eraseDups
  let n2 := (s2.fields.map (fun f => f.name)).eraseDups
  (n1.filter (fun n => ¬ n ∈ n2)).length + (n2.filter (fun n => ¬ n ∈ n1)).length

/-- `optimizer.rs` `can_merge_shapes`: differ by at most one field name. -/
def can_merge_shapes (s1 s2 : Shape) : Bool :=
  count_field_differences s1 s2 ≤ 1

/-- The cluster grown around base index `i` in `optimize_variants`: `i` plus
every later unprocessed index mergeable with `i`. -/
def mergeCluster (shapes : List Shape) (i : Nat) (rest processed : List Nat) : List Nat :=
  i :: rest.filter (fun j => !decide (j ∈ processed) &&
    can_merge_shapes (shapes.getD i dfltShape) (shapes.getD j dfltShape))

/-- The greedy clustering loop of `optimize_variants` over the remaining indices,
carrying the processed set. -/
def clustersGo (shapes : List Shape) : List Nat → List Nat → List (List Nat)
  | [], _ => []
  | i :: rest, processed =>
    if i ∈ processed then clustersGo shapes rest processed
    else mergeCluster shapes i rest processed ::
      clustersGo shapes rest (processed ++ mergeCluster shapes i rest processed)

/-- The index clusters `optimize_variants` forms over `0 .. shapes.length - 1`. -/
def clustersOf (shapes : List Shape) : List (List Nat) :=
  clustersGo shapes (List.range shapes.length) []

/-- `optimizer.rs` `collect_all_fields`: all fields, first occurrence per name. -/
def collect_all_fields (shapes : List Shape) : List ShapeField :=
  (shapes.flatMap (fun s => s.fields)).foldl
    (fun acc f => if acc.any (fun g => g.name = f.name) then acc else acc ++ [f]) []

/-- The optional-wrapping step of `create_merged_variant`: wrap in `Option<...>`
only when the type does not already mention an optional wrapper. -/
def wrapOptionalIfNeeded (f : ShapeField) : ShapeField :=
  if ¬ optPlain.isPrefixOf f.field_type ∧ ¬ optSpaced.isPrefixOf f.field_type ∧
      ¬ strContains f.field_type optPlain ∧ ¬ strContains f.field_type optSpaced then
    { f with field_type := optPlain ++ f.field_type ++ ['>'] }
  else f

/-- One field of `clean_field_types`: collapse `Option<Option<T>>` to
`Option<T>` (plain spelling, then the quote-formatted spaced spelling). -/
def cleanOneFieldType (f : ShapeField) : ShapeField :=
  if "Option<Option<".data.isPrefixOf f.field_type ∧ ">>".data.isSuffixOf f.field_type then
    { f with field_type := optPlain ++ strDropRight (f.field_type.drop 14) 2 ++ ['>'] }
  else if "Option < Option <".data.isPrefixOf f.field_type ∧ " > >".data.isSuffixOf f.field_type then
    { f with field_type :=
        "Option < ".data ++ strTrim (strDropRight (f.field_type.drop 17) 4) ++ " >".data }
  else f

/-- `optimizer.rs` `clean_field_types`. -/
def clean_field_types (fields : List ShapeField) : List ShapeField :=
  fields.map cleanOneFieldType

/-- `optimizer.rs` `create_merged_variant`. -/
def create_merged_variant (indices : List Nat) (shapes : List Shape) : ShapeVariant :=
  match indices with
  | [i] =>
    { name := "Variant".data ++ natStr (i + 1), fields := (shapes.getD i dfltShape).fields }
  | _ =>
    let variant_shapes := indices.map (fun i => shapes.getD i dfltShape)
    let common := find_common_fields variant_shapes
    let all_fields := collect_all_fields variant_shapes
    let merged := all_fields.foldl
      (fun acc f => if acc.any (fun g => g.name = f.name) then acc else acc ++ [wrapOptionalIfNeeded f])
      common
    { name := "MergedVariant".data ++ natStr (indices.headD 0 + 1),
      fields := clean_field_types merged }

/-- `optimizer.rs` `optimize_variants`: one merged variant per greedy cluster. -/
def optimize_variants (shapes : List Shape) : List ShapeVariant :=
  (clustersOf shapes).map (fun c => create_merged_variant c shapes)

/-- `optimizer.rs` `apply_recursive_optimization` (documented no-op passthrough). -/
def apply_recursive_optimization (variants : List ShapeVariant) : List ShapeVariant :=
  variants

/-- `optimizer.rs` `clean_type_string`: normalise whitespace around `<` and `>`
(the four `replace` calls, in source order). -/
def clean_type_string (t : Str) : Str :=
  strReplace (strReplace (strReplace (strReplace t " < ".data "<".data)
    " >".data ">".data) "< ".data "<".data) " >".data ">".data

/-- `optimizer.rs` `types_compatible`: exact equality, else equality of the
whitespace-normalised forms. -/
def types_compatible (t1 t2 : Str) : Bool :=
  t1 = t2 ∨ clean_type_string t1 = clean_type_string t2

/-- Strict lexicographic order on strings (Rust `str::cmp` is byte order,
which agrees with char order on these inputs). -/
def strLt : Str → Str → Bool
  | [], [] => false
  | [], _ :: _ => true
  | _ :: _, [] => false
  | a :: xs, b :: ys => if a < b then true else if a = b then strLt xs ys else false

/-- Stable insertion step for sorting `(name, type, required)` triples by name. -/
def sortPatInsert (x : Str × Str × Bool) :
    List (Str × Str × Bool) → List (Str × Str × Bool)
  | [] => [x]
  | y :: ys => if strLt y.1 x.1 then y :: sortPatInsert x ys else x :: y :: ys

/-- Stable sort of `(name, type, required)` triples by name
(Rust `sort_by(|a, b| a.0.cmp(&b.0))`). -/
def sortPat (l : List (Str × Str × Bool)) : List (Str × Str × Bool) :=
  l.foldr sortPatInsert []

/-- `optimizer.rs` `patterns_compatible`: equal length; positionwise equal
names, compatible types, and required-ness not relaxed (an optional pattern
slot cannot satisfy a required enum slot). -/
def patterns_compatible (p1 p2 : List (Str × Str × Bool)) : Bool :=
  p1.length = p2.length ∧
  (p1.zip p2).all (fun pr =>
    pr.1.1 = pr.2.1 ∧ types_compatible pr.1.2.1 pr.2.2.1 ∧ ¬ (pr.2.2.2 ∧ ¬ pr.1.2.2))

/-- Sorted `(name, type, required)` pattern of a list of shape fields. -/
def patternOfFields (fs : List ShapeField) : List (Str × Str × Bool) :=
  sortPat (fs.map (fun f => (f.name, f.field_type, f.is_required)))

/-- Sorted `(name, type, !optional)` pattern of an enum variant's fields. -/
def patternOfEnumFields (fs : List FieldInfo) : List (Str × Str × Bool) :=
  sortPat (fs.map (fun f => (f.name, f.field_type, !f.is_optional)))

/-- `optimizer.rs` `check_pattern_compatibility`: the `matched / total` ratio
of the remaining patterns that match some fielded variant of the enum, kept as
the exact `(matched, total)` count pair (the Rust code divides them as `f64`
only to compare against a threshold). -/
def check_pattern_compatibility (remaining_patterns : List (Nat × List ShapeField))
    (enum_info : EnumInfo) : Option (Nat × Nat) :=
  let total := remaining_patterns.length
  let matched := (remaining_patterns.filter (fun pr =>
    enum_info.variants.any (fun ev =>
      match ev.fields with
      | some fs => patterns_compatible (patternOfFields pr.2) (patternOfEnumFields fs)
      | none => false))).length
  if total > 0 then some (matched, total) else none

/-- The `compatibility >= 0.7` test on a `(matched, total)` ratio, exact: for
the pattern counts that arise, the `f64` division is close enough to the true
ratio that the comparison agrees with the exact one. -/
def ratioGe70 (matched total : Nat) : Bool := 7 * total ≤ 10 * matched

/-- The derived field name for a folded-back enum: strip a trailing `Variant`
and lowercase, or append `_type` to the lowercased name. -/
def derivedEnumFieldName (type_name : Str) : Str :=
  if strContains (strToLower type_name) "variant".data then
    strToLower (trimEndMatches type_name "Variant".data)
  else strToLower type_name ++ "_type".data

/-- `optimizer.rs` `create_mixed_fold_back_result`: one synthetic folded
variant plus the untouched non-matching variants, as a common-field-free
complex enum. -/
def create_mixed_fold_back_result (folded_variant_indices non_matching : List Nat)
    (common_field : ShapeField) (enum_type_name : Str) (all_variants : List ShapeVariant)
    (base_name : Str) (original_shapes : List Shape) : Option EvolutionResult :=
  let folded :=
    if folded_variant_indices.isEmpty then []
    else
      let original_enum_field_name :=
        original_shapes.findSome? (fun s => s.metadata.original_enum_field_name)
      let enum_field_name :=
        original_enum_field_name.getD (derivedEnumFieldName enum_type_name)
      [{ name := trimEndMatches enum_type_name "Variant".data ++ "Pattern".data,
         fields := [common_field,
           { name := enum_field_name, field_type := enum_type_name, is_required := true }] :
         ShapeVariant }]
  let result_variants := folded ++ non_matching.map (fun idx => all_variants.getD idx dfltVariant)
  some (.complexEnum base_name [] result_variants)

/-- The per-known-type search loop of `try_fold_back_with_common_field`:
first untagged enum whose variants are at least 70% compatible with the
remaining patterns wins. -/
def foldBackEnumSearch (ktIter : KnownTypes) (variant_indices : List Nat)
    (common_field : ShapeField) (remaining_patterns : List (Nat × List ShapeField))
    (variants : List ShapeVariant) (base_name : Str) (original_shapes : List Shape) :
    Option EvolutionResult :=
  match ktIter with
  | [] => none
  | (type_name, ti) :: ktRest =>
    let tryNext := foldBackEnumSearch ktRest variant_indices common_field
      remaining_patterns variants base_name original_shapes
    match ti.kind with
    | .enumKind info =>
      if info.is_untagged then
        match check_pattern_compatibility remaining_patterns info with
        | some compatibility =>
          if ratioGe70 compatibility.1 compatibility.2 then
            let non_matching := (List.range variants.length).filter
              (fun idx => ¬ variant_indices.contains idx)
            if ¬ non_matching.isEmpty then
              create_mixed_fold_back_result variant_indices non_matching common_field
                type_name variants base_name original_shapes
            else
              some (.simpleStruct base_name
                [common_field,
                 { name := derivedEnumFieldName type_name, field_type := type_name,
                   is_required := true }])
          else tryNext
        | none => tryNext
      else tryNext
    | _ => tryNext

/-- `optimizer.rs` `try_fold_back_with_common_field`: split each involved
variant into the shared field and its remaining fields, then search the known
untagged enums. -/
def try_fold_back_with_common_field (kt : KnownTypes) (variant_indices : List Nat)
    (common_field_name : Str) (variants : List ShapeVariant) (base_name : Str)
    (original_shapes : List Shape) : Option EvolutionResult :=
  let step := variant_indices.foldl
    (fun (st : Option ShapeField × List (Nat × List ShapeField)) idx =>
      let variant := variants.getD idx dfltVariant
      match variant.fields.find? (fun f => f.name = common_field_name) with
      | some cf =>
        ((st.1).orElse (fun _ => some cf),
         st.2 ++ [(idx, variant.fields.filter (fun f => ¬ f.name = common_field_name))])
      | none => st)
    (none, [])
  match step.1 with
  | some common_field =>
    foldBackEnumSearch kt variant_indices common_field step.2 variants base_name original_shapes
  | none => none

/-- All field names occurring across the variants, modelling the `HashSet` of
`try_find_common_field_fold_back` in first-insertion order. -/
def allFieldNames (variants : List ShapeVariant) : List Str :=
  (variants.flatMap (fun v => v.fields.map (fun f => f.name))).eraseDups

/-- The per-field-name loop of `try_find_common_field_fold_back`. -/
def commonFieldNameSearch (kt : KnownTypes) (names : List Str)
    (variants : List ShapeVariant) (min_variants : Nat) (base_name : Str)
    (original_shapes : List Shape) : Option EvolutionResult :=
  match names with
  | [] => none
  | field_name :: rest =>
    let with_field := (variants.enum.filter
      (fun p => p.2.fields.any (fun f => f.name = field_name))).map (fun p => p.1)
    if min_variants ≤ with_field.length then
      match try_fold_back_with_common_field kt with_field field_name variants base_name
        original_shapes with
      | some r => some r
      | none => commonFieldNameSearch kt rest variants min_variants base_name original_shapes
    else commonFieldNameSearch kt rest variants min_variants base_name original_shapes

/-- `optimizer.rs` `try_find_common_field_fold_back`. -/
def try_find_common_field_fold_back (kt : KnownTypes) (variants : List ShapeVariant)
    (min_variants : Nat) (base_name : Str) (original_shapes : List Shape) :
    Option EvolutionResult :=
  if variants.length < min_variants then none
  else commonFieldNameSearch kt (allFieldNames variants) variants min_variants base_name
    original_shapes

/-- The decreasing-threshold loop of `try_pattern_fold_back`. -/
def patternFoldBackAt (kt : KnownTypes) (thresholds : List Nat)
    (variants : List ShapeVariant) (base_name : Str) (original_shapes : List Shape) :
    Option EvolutionResult :=
  match thresholds with
  | [] => none
  | t :: rest =>
    match try_find_common_field_fold_back kt variants t base_name original_shapes with
    | some r => some r
    | none => patternFoldBackAt kt rest variants base_name original_shapes

/-- `optimizer.rs` `try_pattern_fold_back`: thresholds from the variant count
down to 1. -/
def try_pattern_fold_back (kt : KnownTypes) (variants : List ShapeVariant)
    (base_name : Str) (original_shapes : List Shape) : Option EvolutionResult :=
  patternFoldBackAt kt
    ((List.range variants.length).map (fun i => variants.length - i))
    variants base_name original_shapes

/-- Model of `(our_patterns.len() as f64 * 0.8).ceil() as usize`, exact as
`⌈4n/5⌉` (the `f64` round-off cannot move the ceiling for feasible lengths). -/
def ceil08 (n : Nat) : Nat := (4 * n + 4) / 5

/-- `optimizer.rs` `check_enum_compatibility`. -/
def check_enum_compatibility (common_fields : List ShapeField)
    (variants : List ShapeVariant) (enum_name : Str) (enum_info : EnumInfo)
    (base_name : Str) (original_shapes : List Shape) : Option EvolutionResult :=
  if ¬ enum_info.is_untagged then none
  else
    let enum_patterns := enum_info.variants.filterMap
      (fun ev => ev.fields.map patternOfEnumFields)
    let our_patterns := variants.map (fun v => patternOfFields v.fields)
    let matched := (our_patterns.filter
      (fun p => enum_patterns.any (fun ep => patterns_compatible p ep))).length
    if ¬ common_fields.isEmpty ∧ 0 < matched then
      let enum_field_name :=
        match original_shapes.find? (fun s => s.metadata.source_enum_type = some enum_name) with
        | some os =>
          match os.metadata.original_enum_field_name with
          | some nm => nm
          | none => derivedEnumFieldName enum_name
        | none => derivedEnumFieldName enum_name
      let final_fields := common_fields ++
        [{ name := enum_field_name, field_type := enum_name, is_required := true : ShapeField }]
      if matched < our_patterns.length then
        let new_variants := our_patterns.enum.filterMap (fun p =>
          if enum_patterns.any (fun ep => patterns_compatible p.2 ep) then none
          else some
            { name := "NewVariant".data ++ natStr (p.1 + 1),
              fields := p.2.map (fun tr =>
                { name := tr.1, field_type := tr.2.1, is_required := tr.2.2 }) :
              ShapeVariant })
        if ¬ new_variants.isEmpty then
          some (.structWithExtendedEnum base_name final_fields enum_name new_variants)
        else some (.simpleStruct base_name final_fields)
      else some (.simpleStruct base_name final_fields)
    else
      if ceil08 our_patterns.length ≤ matched then
        let enum_field_name :=
          if strContains (strToLower enum_name) "variant".data then "variant".data
          else strToLower enum_name ++ "_type".data
        some (.simpleStruct base_name (common_fields ++
          [{ name := enum_field_name, field_type := enum_name, is_required := true :
             ShapeField }]))
      else none

/-- The per-known-type loop of `try_enum_fold_back`. -/
def enumFoldBackSearch (ktIter : KnownTypes) (common_fields : List ShapeField)
    (variants : List ShapeVariant) (base_name : Str) (original_shapes : List Shape) :
    Option EvolutionResult :=
  match ktIter with
  | [] => none
  | (type_name, ti) :: ktRest =>
    match ti.kind with
    | .enumKind info =>
      match check_enum_compatibility common_fields variants type_name info base_name
        original_shapes with
      | some r => some r
      | none => enumFoldBackSearch ktRest common_fields variants base_name original_shapes
    | _ => enumFoldBackSearch ktRest common_fields variants base_name original_shapes

/-- `optimizer.rs` `try_enum_fold_back`. -/
def try_enum_fold_back (kt : KnownTypes) (common_fields : List ShapeField)
    (variants : List ShapeVariant) (base_name : Str) (original_shapes : List Shape) :
    Option EvolutionResult :=
  enumFoldBackSearch kt common_fields variants base_name original_shapes

/-- `optimizer.rs` `analyze_fold_back`: pattern fold-back first, then (only
with common fields and variants present) direct enum fold-back. -/
def analyze_fold_back (kt : KnownTypes) (common_fields : List ShapeField)
    (variants : List ShapeVariant) (base_name : Str) (original_shapes : List Shape) :
    Option EvolutionResult :=
  match try_pattern_fold_back kt variants base_name original_shapes with
  | some r => some r
  | none =>
    if ¬ common_fields.isEmpty ∧ ¬ variants.isEmpty then
      try_enum_fold_back kt common_fields variants base_name original_shapes
    else none

/-- `optimizer.rs` `optimize_shapes`: the whole optimizer pipeline. -/
def optimize_shapes (kt : KnownTypes) (shapes : List Shape) (base_name : Str) :
    EvolutionResult :=
  match shapes with
  | [] => .simpleStruct base_name []
  | [s] => .simpleStruct base_name s.fields
  | _ =>
    let common_fields := find_common_fields shapes
    let variant_shapes := remove_common_fields shapes common_fields
    let final_variants := apply_recursive_optimization (optimize_variants variant_shapes)
    match analyze_fold_back kt common_fields final_variants base_name shapes with
    | some r => r
    | none =>
      if final_variants.isEmpty then .simpleStruct base_name common_fields
      else if common_fields.isEmpty ∧ final_variants.length = 1 then
        .simpleStruct base_name (final_variants.headD dfltVariant).fields
      else if final_variants.length = 1 ∧ (final_variants.headD dfltVariant).fields.isEmpty then
        .simpleStruct base_name common_fields
      else if final_variants.length = 1 then
        .simpleStruct base_name
          (clean_field_types (common_fields ++ (final_variants.headD dfltVariant).fields))
      else .complexEnum base_name common_fields final_variants

/-- `evolution.rs` `types_compatible`: equality or substring containment in
either direction. -/
def evolution_types_compatible (existing target : Str) : Bool :=
  existing = target ∨ strContains existing target ∨ strContains target existing

/-- Fuel-driven floor of the base-2 logarithm of a natural number. -/
def natLog2Go : Nat → Nat → Nat
  | 0, _ => 0
  | fuel + 1, m => if 2 ≤ m then natLog2Go fuel (m / 2) + 1 else 0

/-- Floor of the base-2 logarithm (0 on 0 and 1). -/
def natLog2 (n : Nat) : Nat := natLog2Go n n

/-- Round the fraction `a / b` (with `b > 0`) to the nearest natural number,
ties to even. -/
def rheFrac (a b : Nat) : Nat :=
  let q := a / b
  let r := a % b
  if 2 * r < b then q else if b < 2 * r then q + 1 else if q % 2 = 0 then q else q + 1

/-- Floor of the base-2 logarithm of the positive fraction `a / b`, as an
integer (negative when `a < b`). -/
def fracLog2 (a b : Nat) : ℤ :=
  let e0 : ℤ := (natLog2 a : ℤ) - (natLog2 b : ℤ)
  let below : Bool :=
    if 0 ≤ e0 then a < 2 ^ e0.toNat * b else a * 2 ^ (-e0).toNat < b
  if below then e0 - 1 else e0

/-- Round the nonnegative fraction `a / b` to the nearest IEEE-754 binary32
value (24-bit significand, round to nearest, ties to even; the exponent range
is not clamped, which only diverges from `f32` on magnitudes no field count
reaches).  The result is returned as an unreduced fraction. -/
def f32nearFrac (a b : Nat) : Nat × Nat :=
  if a = 0 ∨ b = 0 then (0, 1)
  else
    let e := fracLog2 a b
    -- significand: round a/b / 2^(e-23) to the nearest integer
    let s :=
      if 23 ≤ e then rheFrac a (b * 2 ^ (e - 23).toNat)
      else rheFrac (a * 2 ^ (23 - e).toNat) b
    -- value: s * 2^(e-23)
    if 23 ≤ e then (s * 2 ^ (e - 23).toNat, 1) else (s, 2 ^ (23 - e).toNat)

/-- The coverage bonus of `calculate_variant_compatibility`:
`(matched as f32 / variant_field_count.max(1) as f32 * 10.0) as usize`, with
each `f32` operation correctly rounded and the final cast truncating. -/
def coverageBonus (matched n : Nat) : Nat :=
  let a := f32nearFrac matched 1
  let b := f32nearFrac (max n 1) 1
  let c := f32nearFrac (a.1 * b.2) (a.2 * b.1)
  let d := f32nearFrac (c.1 * 10) c.2
  d.1 / d.2

/-- The field-matching loop of `calculate_variant_compatibility`, carrying
`(score, matched)`: first variant field with the same name wins 10 points plus
5 for type compatibility. -/
def calcVariantLoop : List ShapeField → List FieldInfo → Nat × Nat → Nat × Nat
  | [], _, st => st
  | jf :: rest, vfs, (score, matched) =>
    match vfs.find? (fun vf => vf.name = jf.name) with
    | some vf =>
      calcVariantLoop rest vfs
        (score + 10 + (if evolution_types_compatible jf.field_type vf.field_type then 5 else 0),
         matched + 1)
    | none => calcVariantLoop rest vfs (score, matched)

/-- `evolution.rs` `calculate_variant_compatibility`. -/
def calculate_variant_compatibility (json_shape : Shape) (variant : VariantInfo) : Nat :=
  match variant.fields with
  | none => 0
  | some variant_fields =>
    let st := calcVariantLoop json_shape.fields variant_fields (0, 0)
    let score := st.1 + coverageBonus st.2 variant_fields.length
    let unmatched := json_shape.fields.length - st.2
    if variant_fields.length < unmatched then score - unmatched * 2 else score

/-- Round the fraction `a / b` (with `b > 0`) to the nearest natural number
(the generic reading of `round`; halves round up). -/
def roundNearestFrac (a b : Nat) : Nat := (2 * a + b) / (2 * b)

/-- Modelled from the spec: the variant-vs-sample score as the specification
words it — 10 points per shared field name plus 5 for compatible types, plus
`round(10 * matched / total_variant_fields)` as coverage bonus, minus
`2 * unmatched_sample_fields` when the sample has more unmatched fields than
the variant has fields, floored at 0. -/
def spec_variant_score (json_shape : Shape) (variant : VariantInfo) : Nat :=
  match variant.fields with
  | none => 0
  | some vfs =>
    let base := (json_shape.fields.map (fun jf =>
      match vfs.find? (fun vf => vf.name = jf.name) with
      | some vf =>
        10 + (if evolution_types_compatible jf.field_type vf.field_type then 5 else 0)
      | none => 0)).sum
    let matched := (json_shape.fields.filter
      (fun jf => (vfs.find? (fun vf => vf.name = jf.name)).isSome)).length
    let score := base + roundNearestFrac (10 * matched) vfs.length
    let unmatched := json_shape.fields.length - matched
    if vfs.length < unmatched then score - unmatched * 2 else score

/-- Integer-type names of the cross-compatibility table the spec describes. -/
def isIntType (t : Str) : Bool :=
  t = "i16".data ∨ t = "i32".data ∨ t = "i64".data ∨
  t = "u16".data ∨ t = "u32".data ∨ t = "u64".data

/-- Float-type names of the cross-compatibility table the spec describes. -/
def isFloatType (t : Str) : Bool := t = "f32".data ∨ t = "f64".data

/-- String type name of the cross-compatibility table the spec describes. -/
def isStringType (t : Str) : Bool := t = "String".data

/-- Strip one optional wrapper, in either spelling, returning the inner type. -/
def stripOptWrapper (t : Str) : Option Str :=
  if optPlain.isPrefixOf t ∧ ['>'].isSuffixOf t ∧ 8 ≤ t.length then
    some (strDropRight (t.drop 7) 1)
  else if optSpaced.isPrefixOf t ∧ ['>'].isSuffixOf t ∧ 9 ≤ t.length then
    some (strTrim (strDropRight (t.drop 8) 1))
  else none

/-- Fuel-driven worker for `spec_types_compatible`. -/
def specTypesCompatGo : Nat → Str → Str → Bool
  | 0, t1, t2 => clean_type_string t1 = clean_type_string t2
  | fuel + 1, t1, t2 =>
    (clean_type_string t1 = clean_type_string t2 : Bool) ||
    (match stripOptWrapper t1 with
     | some u => specTypesCompatGo fuel u t2
     | none => false) ||
    (match stripOptWrapper t2 with
     | some u => specTypesCompatGo fuel t1 u
     | none => false) ||
    (isStringType t1 && isIntType t2) || (isIntType t1 && isStringType t2) ||
    (isStringType t1 && isFloatType t2) || (isFloatType t1 && isStringType t2) ||
    (isIntType t1 && isFloatType t2) || (isFloatType t1 && isIntType t2)

/-- Modelled from the spec: type compatibility as the specification words it —
whitespace-normalised equality, else one side the optional-wrapped form of the
other (recursively unwrapping), else the string/integer/float cross table. -/
def spec_types_compatible (t1 t2 : Str) : Bool :=
  specTypesCompatGo (t1.length + t2.length) t1 t2


/-! Helper lemmas. -/

/-- Fixture shape with the single field `a`. -/
def exA : Shape :=
  { fields := [{ name := "a".data, field_type := "i64".data, is_required := true }],
    metadata := metadataNew }

/-- Fixture shape with the single field `b`. -/
def exB : Shape :=
  { fields := [{ name := "b".data, field_type := "i64".data, is_required := true }],
    metadata := metadataNew }

/-- Fixture shape with no fields. -/
def exEmpty : Shape := { fields := [], metadata := metadataNew }

/-- Fixture shape with the two fields `a : i64` and `b : String`. -/
def exAB : Shape :=
  { fields := [{ name := "a".data, field_type := "i64".data, is_required := true },
               { name := "b".data, field_type := "String".data, is_required := true }],
    metadata := metadataNew }

/-- Fixture enum variant `A { x : i64 }`. -/
def foldVarA : VariantInfo :=
  { name := "A".data,
    fields := some [{ name := "x".data, field_type := "i64".data, is_optional := false }] }

/-- Fixture enum variant `B { y : i64 }`. -/
def foldVarB : VariantInfo :=
  { name := "B".data,
    fields := some [{ name := "y".data, field_type := "i64".data, is_optional := false }] }

/-- Fixture: known untagged enum `E` with variants `{x : i64}` and `{y : i64}`. -/
def foldEnumE : TypeInfo :=
  { name := "E".data,
    kind := .enumKind { variants := [foldVarA, foldVarB], is_untagged := true } }

/-- Fixture known-types table containing only `E`. -/
def foldKT : KnownTypes := [("E".data, foldEnumE)]

/-- Fixture residual variant `{shared : String, x : i64}`. -/
def foldV1 : ShapeVariant :=
  { name := "Variant1".data,
    fields := [{ name := "shared".data, field_type := "String".data, is_required := true },
               { name := "x".data, field_type := "i64".data, is_required := true }] }

/-- Fixture residual variant `{shared : String, y : i64}`. -/
def foldV2 : ShapeVariant :=
  { name := "Variant2".data,
    fields := [{ name := "shared".data, field_type := "String".data, is_required := true },
               { name := "y".data, field_type := "i64".data, is_required := true }] }

/-- Fixture common field `id : String`. -/
def foldIdField : ShapeField :=
  { name := "id".data, field_type := "String".data, is_required := true }

/-- The occurrence list of a field name: the first field with that name from
each shape that has one, in shape order. -/
def occList (shapes : List Shape) (n : Str) : List ShapeField :=
  shapes.filterMap (fun s => s.fields.find? (fun f => f.name = n))

/-- The claimed smaller-width-wins pairs: `a` beats `b`. -/
def intWinsOver (a b : Str) : Prop :=
  (a = "i16".data ∧ (b = "i32".data ∨ b = "i64".data)) ∨
  (a = "i32".data ∧ b = "i64".data) ∨
  (a = "u16".data ∧ (b = "u32".data ∨ b = "u64".data)) ∨
  (a = "u32".data ∧ b = "u64".data)

instance (a b : Str) : Decidable (intWinsOver a b) := by
  unfold intWinsOver
  infer_instance

/-- Absence of a double optional wrapper, in all four bracket spellings. -/
def noDoubleOpt (t : Str) : Prop :=
  ¬ "Option<Option<".data.isPrefixOf t = true ∧
  ¬ "Option < Option <".data.isPrefixOf t = true ∧
  ¬ "Option<Option <".data.isPrefixOf t = true ∧
  ¬ "Option < Option<".data.isPrefixOf t = true

instance (t : Str) : Decidable (noDoubleOpt t) := by
  unfold noDoubleOpt
  infer_instance

/-- Fixture sample shape `{a : i64, b : i64}`. -/
def c7Sample : Shape :=
  { fields := [⟨"a".data, "i64".data, true⟩, ⟨"b".data, "i64".data, true⟩],
    metadata := metadataNew }

/-- Fixture enum variant with fields `{a : i64, b : i64, c : i64}`. -/
def c7Variant : VariantInfo :=
  { name := "V".data,
    fields := some [⟨"a".data, "i64".data, false⟩, ⟨"b".data, "i64".data, false⟩,
      ⟨"c".data, "i64".data, false⟩] }

/-- The base shape field a plain (non-untagged-enum) struct field contributes. -/
def mkBaseField (f : FieldInfo) : ShapeField :=
  { name := f.name, field_type := f.field_type, is_required := !f.is_optional }

/-- A three-field record fixture: one required field and two optional ones. -/
def c2Fields : List FieldInfo :=
  [{ name := "a".data, field_type := "i64".data, is_optional := false },
   { name := "b".data, field_type := "Option < i64 >".data, is_optional := true },
   { name := "c".data, field_type := "Option < String >".data, is_optional := true }]

/-- Splitting a filter along a second predicate is a permutation. -/
theorem filter_partition_perm {α : Type} (p q : α → Bool) (l : List α) :
    (l.filter (fun a => p a && q a) ++ l.filter (fun a => p a && !q a)).Perm (l.filter p) := by
  induction l with
  | nil => simp
  | cons x xs ih =>
    by_cases hp : p x
    · by_cases hq : q x
      · simpa [hp, hq] using ih.cons x
      · simp only [List.filter_cons, hp, hq]
        simpa using List.perm_middle.trans (ih.cons x)
    · simpa [hp] using ih

/-- The clusters' indices are a permutation of the unprocessed part of the
worklist. -/
theorem clustersGo_flatten_perm (shapes : List Shape) :
    ∀ (todo processed : List Nat), todo.Nodup →
      ((clustersGo shapes todo processed).flatten).Perm
        (todo.filter (fun j => !decide (j ∈ processed))) := by
  intro todo
  induction todo with
  | nil => intro processed _; simp [clustersGo]
  | cons i rest ih =>
    intro processed hnd
    have hndr : rest.Nodup := hnd.of_cons
    have hir : i ∉ rest := (List.nodup_cons.mp hnd).1
    by_cases hi : i ∈ processed
    · have : (i :: rest).filter (fun j => !decide (j ∈ processed)) =
          rest.filter (fun j => !decide (j ∈ processed)) := by
        simp [List.filter_cons, hi]
      rw [this]
      simpa [clustersGo, hi] using ih processed hndr
    · have hrec := ih (processed ++ mergeCluster shapes i rest processed) hndr
      have hfilt : rest.filter
            (fun j => !decide (j ∈ (processed ++ mergeCluster shapes i rest processed))) =
          rest.filter (fun j => (fun j => !decide (j ∈ processed)) j &&
            !(fun j => can_merge_shapes (shapes.getD i dfltShape) (shapes.getD j dfltShape)) j) := by
        apply List.filter_congr
        intro j hj
        have hji : j ≠ i := fun h => hir (h ▸ hj)
        by_cases hjp : j ∈ processed
        · simp [mergeCluster, List.mem_append, hjp]
        · by_cases hjm : can_merge_shapes (shapes.getD i dfltShape) (shapes.getD j dfltShape)
          · simp [mergeCluster, List.mem_append, hjp, hji, List.mem_filter, hj, hjm]
          · simp [mergeCluster, List.mem_append, hjp, hji, List.mem_filter, hj, hjm]
      rw [hfilt] at hrec
      have hperm2 := (hrec.append_left
        (rest.filter (fun j => (fun j => !decide (j ∈ processed)) j &&
          (fun j => can_merge_shapes (shapes.getD i dfltShape) (shapes.getD j dfltShape)) j)))
      have hpart := filter_partition_perm (fun j => !decide (j ∈ processed))
        (fun j => can_merge_shapes (shapes.getD i dfltShape) (shapes.getD j dfltShape)) rest
      have hfin : ((i :: rest).filter (fun j => !decide (j ∈ processed))) =
          i :: rest.filter (fun j => !decide (j ∈ processed)) := by
        simp [List.filter_cons, hi]
      rw [hfin]
      have hflat : (clustersGo shapes (i :: rest) processed).flatten =
          i :: (rest.filter (fun j => (fun j => !decide (j ∈ processed)) j &&
              (fun j => can_merge_shapes (shapes.getD i dfltShape) (shapes.getD j dfltShape)) j) ++
            (clustersGo shapes rest (processed ++ mergeCluster shapes i rest processed)).flatten) := by
        simp [clustersGo, hi, mergeCluster]
      rw [hflat]
      exact ((hperm2).trans hpart).cons i

/-- Every produced cluster is its base index followed by later indices that
are mergeable with the base. -/
theorem clustersGo_cluster_shape (shapes : List Shape) :
    ∀ (todo processed : List Nat) (c : List Nat), c ∈ clustersGo shapes todo processed →
      ∃ b rest, c = b :: rest ∧ ∀ j ∈ rest,
        count_field_differences (shapes.getD b dfltShape) (shapes.getD j dfltShape) ≤ 1 := by
  intro todo
  induction todo with
  | nil => intro processed c hc; simp [clustersGo] at hc
  | cons i rest ih =>
    intro processed c hc
    by_cases hi : i ∈ processed
    · exact ih processed c (by simpa [clustersGo, hi] using hc)
    · rw [show clustersGo shapes (i :: rest) processed =
          mergeCluster shapes i rest processed ::
            clustersGo shapes rest (processed ++ mergeCluster shapes i rest processed) by
        simp [clustersGo, hi]] at hc
      rcases List.mem_cons.mp hc with hceq | hcmem
      · refine ⟨i, rest.filter (fun j => !decide (j ∈ processed) &&
          can_merge_shapes (shapes.getD i dfltShape) (shapes.getD j dfltShape)), hceq, ?_⟩
        intro j hj
        have := (List.mem_filter.mp hj).2
        have hmerge : can_merge_shapes (shapes.getD i dfltShape) (shapes.getD j dfltShape) = true := by
          cases h1 : decide (j ∈ processed) <;>
            cases h2 : can_merge_shapes (shapes.getD i dfltShape) (shapes.getD j dfltShape) <;>
              simp_all
        exact of_decide_eq_true hmerge
      · exact ih _ c hcmem

/-- C9: the Shape Optimizer degenerates gracefully — an empty shape list gives
a `SimpleRecord` with the given name and no fields, and a singleton shape list
gives a `SimpleRecord` with exactly that shape's fields. -/
theorem optimizer_degenerate_cases :
    (∀ (kt : KnownTypes) (name : Str),
      optimize_shapes kt [] name = .simpleStruct name []) ∧
    (∀ (kt : KnownTypes) (s : Shape) (name : Str),
      optimize_shapes kt [s] name = .simpleStruct name s.fields) :=
  ⟨fun _ _ => rfl, fun _ _ _ => rfl⟩

/-- C10: the greedy variant clustering partitions the residual-shape index set
`{0, …, n-1}` — the clusters' flattened index list is a permutation of
`range n` (every index in exactly one cluster), and `optimize_variants` emits
exactly one variant per cluster. -/
theorem optimizer_clusters_partition (shapes : List Shape) :
    ((clustersOf shapes).flatten).Perm (List.range shapes.length) ∧
    (optimize_variants shapes).length = (clustersOf shapes).length := by
  constructor
  · have h := clustersGo_flatten_perm shapes (List.range shapes.length) [] (List.nodup_range _)
    simpa using h
  · simp [optimize_variants]

/-- C1 (amended): in the greedy variant clustering the merge threshold is
relative to a cluster's *base* shape — every non-base member of a cluster has
field-name symmetric difference at most 1 with the cluster's first index, and
for a two-shape input the shapes land in one cluster exactly when their
symmetric difference is at most 1 (at 2 or more they stay separate). -/
theorem greedy_cluster_base_threshold :
    (∀ (shapes : List Shape) (c : List Nat), c ∈ clustersOf shapes →
      ∃ b rest, c = b :: rest ∧ ∀ j ∈ rest,
        count_field_differences (shapes.getD b dfltShape) (shapes.getD j dfltShape) ≤ 1) ∧
    (∀ s1 s2 : Shape,
      (count_field_differences s1 s2 ≤ 1 → clustersOf [s1, s2] = [[0, 1]]) ∧
      (2 ≤ count_field_differences s1 s2 → clustersOf [s1, s2] = [[0], [1]])) := by
  constructor
  · intro shapes c hc
    exact clustersGo_cluster_shape shapes (List.range shapes.length) [] c hc
  · intro s1 s2
    have hrange : List.range 2 = [0, 1] := rfl
    constructor
    · intro h
      have hm : can_merge_shapes s1 s2 = true := decide_eq_true h
      simp [clustersOf, hrange, clustersGo, mergeCluster, hm]
    · intro h
      have hm : can_merge_shapes s1 s2 = false := by
        have : ¬ count_field_differences s1 s2 ≤ 1 := by omega
        simpa [can_merge_shapes] using this
      simp [clustersOf, hrange, clustersGo, mergeCluster, hm]

/-- C1 (counterexample): the pairwise reading of the merge threshold is false.
With residual shapes `{a}`, `{b}`, `{}` the shapes `{b}` and `{}` differ by one
field name yet land in different clusters, and with residual shapes `{}`,
`{a}`, `{b}` the shapes `{a}` and `{b}` differ by two field names yet land in
the same cluster. -/
theorem greedy_cluster_pairwise_counterexample :
    clustersOf [exA, exB, exEmpty] = [[0, 2], [1]] ∧
    count_field_differences exB exEmpty = 1 ∧
    clustersOf [exEmpty, exA, exB] = [[0, 1, 2]] ∧
    count_field_differences exA exB = 2 := by decide

/-- Witness for `greedy_cluster_base_threshold` at concrete inputs. -/
theorem greedy_cluster_base_threshold_witness :
    (∃ b rest, ([0, 2] : List Nat) = b :: rest ∧ ∀ j ∈ rest,
      count_field_differences ([exA, exB, exEmpty].getD b dfltShape)
        ([exA, exB, exEmpty].getD j dfltShape) ≤ 1) ∧
    clustersOf [exA, exA] = [[0, 1]] ∧
    clustersOf [exA, exB] = [[0], [1]] :=
  ⟨greedy_cluster_base_threshold.1 [exA, exB, exEmpty] [0, 2] (by decide),
   (greedy_cluster_base_threshold.2 exA exA).1 (by decide),
   (greedy_cluster_base_threshold.2 exA exB).2 (by decide)⟩

/-- C5 (amended): the optimizer's `types_compatible` returns true exactly when
the two type strings are equal after normalising whitespace around the generic
brackets — it has no optional-unwrapping rule and no cross-compatibility table
(`evolution.rs` has a separate, containment-based `types_compatible`, embedded
as `evolution_types_compatible`). -/
theorem types_compatible_normalized_equality (t1 t2 : Str) :
    (types_compatible t1 t2 = true ↔ clean_type_string t1 = clean_type_string t2) ∧
    (evolution_types_compatible t1 t2 = true ↔
      t1 = t2 ∨ strContains t1 t2 = true ∨ strContains t2 t1 = true) := by
  constructor
  · simp only [types_compatible, decide_eq_true_eq]
    constructor
    · rintro (rfl | h)
      · rfl
      · exact h
    · intro h
      exact Or.inr h
  · simp [evolution_types_compatible]

/-- C5 (counterexample): the claimed cross-compatibility table and recursive
optional unwrapping are absent from `types_compatible` — on `String` vs `i64`
(in the table) and on `Option<i64>` vs `i64` (optional-wrapped form) the code
returns false where the claimed specification returns true. -/
theorem types_compatible_cross_table_counterexample :
    types_compatible "String".data "i64".data = false ∧
    spec_types_compatible "String".data "i64".data = true ∧
    types_compatible "Option<i64>".data "i64".data = false ∧
    spec_types_compatible "Option<i64>".data "i64".data = true := by decide

/-- C6: `find_common_fields` emits the common fields in the order a `HashMap`
iteration enumerates the key set, and that order changes the result — the two
enumeration orders of the same key set `{a, b}` (both permutations of the
map's keys) yield different outputs, so the optimizer's output is not a
function of the input shape list alone. -/
theorem find_common_fields_order_dependent :
    find_common_fields_ordered [exAB, exAB] ["a".data, "b".data] ≠
      find_common_fields_ordered [exAB, exAB] ["b".data, "a".data] ∧
    (["b".data, "a".data] : List Str).Perm ["a".data, "b".data] ∧
    ((fcfState [exAB, exAB]).1.map (fun p => p.1)).Perm ["a".data, "b".data] ∧
    find_common_fields [exAB, exAB] =
      find_common_fields_ordered [exAB, exAB] ((fcfState [exAB, exAB]).1.map (fun p => p.1)) :=
  ⟨by decide, by decide, by decide, rfl⟩

/-- C4: when pattern fold-back matches all residual variants (here both
variants share `shared` and their remaining patterns match the untagged enum
`E` 100% ≥ 70%), the returned `SimpleRecord` holds only the shared field and
the union-typed field — the common fields handed to `analyze_fold_back` (here
`id : String`) are dropped from the result, although the specification requires
them to be kept. -/
theorem pattern_fold_back_drops_common_fields :
    analyze_fold_back foldKT [foldIdField] [foldV1, foldV2] "Msg".data [] =
      some (.simpleStruct "Msg".data
        [{ name := "shared".data, field_type := "String".data, is_required := true },
         { name := "e_type".data, field_type := "E".data, is_required := true }]) ∧
    ¬ "id".data ∈ ([{ name := "shared".data, field_type := "String".data, is_required := true },
         { name := "e_type".data, field_type := "E".data, is_required := true }] :
           List ShapeField).map (fun f => f.name) := by decide

/-- Association lookup over a fst-preserving map update. -/
theorem lookupA_map_bump (c : List (Str × Nat)) (n : Str) :
    lookupA (c.map (fun p => if p.1 = n then (p.1, p.2 + 1) else p)) n =
      (lookupA c n).map (fun v => v + 1) := by
  induction c with
  | nil => rfl
  | cons x xs ih =>
    by_cases hx : x.1 = n
    · simp [lookupA, List.find?_cons, hx]
    · simpa [lookupA, List.find?_cons, hx] using ih

/-- Association lookup over a keyed constant-replacement map. -/
theorem lookupA_map_setConst {β : Type} (l : List (Str × β)) (n : Str) (v : β) :
    lookupA (l.map (fun p => if p.1 = n then (p.1, v) else p)) n =
      (lookupA l n).map (fun _ => v) := by
  induction l with
  | nil => rfl
  | cons x xs ih =>
    by_cases hx : x.1 = n
    · simp [lookupA, List.find?_cons, hx]
    · simpa [lookupA, List.find?_cons, hx] using ih

/-- Association lookup distributes over append. -/
theorem lookupA_append {β : Type} (l1 l2 : List (Str × β)) (n : Str) :
    lookupA (l1 ++ l2) n =
      (match lookupA l1 n with
       | some v => some v
       | none => lookupA l2 n) := by
  induction l1 with
  | nil => simp [lookupA]
  | cons x xs ih =>
    by_cases hx : x.1 = n
    · simp [lookupA, List.find?_cons, hx]
    · simpa [lookupA, List.find?_cons, hx] using ih

/-- A lookup succeeds exactly on the keys of the association list. -/
theorem lookupA_isSome_iff {β : Type} (l : List (Str × β)) (n : Str) :
    (lookupA l n).isSome ↔ n ∈ l.map (fun p => p.1) := by
  unfold lookupA
  cases hf : l.find? (fun p => p.1 = n) with
  | none =>
    simp only [Option.map_none', Option.isSome_none, Bool.false_eq_true, false_iff]
    intro hmem
    rcases List.mem_map.mp hmem with ⟨x, hx, he⟩
    have := List.find?_eq_none.mp hf x hx
    simp [he] at this
  | some p =>
    simp only [Option.map_some', Option.isSome_some, true_iff]
    have hpmem := List.mem_of_find?_eq_some hf
    have hpe : p.1 = n := by simpa using List.find?_some hf
    exact List.mem_map.mpr ⟨p, hpmem, hpe⟩

/-- Unfolding a lookup over a cons cell. -/
theorem lookupA_cons {β : Type} (x : Str × β) (xs : List (Str × β)) (m : Str) :
    lookupA (x :: xs) m = if x.1 = m then some x.2 else lookupA xs m := by
  by_cases h : x.1 = m <;> simp [lookupA, List.find?_cons, h]

/-- A missing key means the lookup fails. -/
theorem lookupA_eq_none_of_not_any {β : Type} (l : List (Str × β)) (n : Str)
    (h : l.any (fun p => p.1 = n) = false) : lookupA l n = none := by
  cases hf : l.find? (fun p => p.1 = n) with
  | none => simp [lookupA, hf]
  | some p =>
    have hpe : p.1 = n := by simpa using List.find?_some hf
    have : l.any (fun p => p.1 = n) = true :=
      List.any_eq_true.mpr ⟨p, List.mem_of_find?_eq_some hf, by simpa using hpe⟩
    rw [h] at this
    cases this

/-- A map update that never changes keys preserves key lists. -/
theorem map_fst_keep {β : Type} (l : List (Str × β)) (g : Str × β → Str × β)
    (hg : ∀ p, (g p).1 = p.1) : (l.map g).map (fun p => p.1) = l.map (fun p => p.1) := by
  induction l with
  | nil => rfl
  | cons x xs ih => simp [hg, ih]

/-- `bumpCount` at the bumped key: one more than the previous count (0 if new). -/
theorem lookupA_bumpCount_self (c : List (Str × Nat)) (n : Str) :
    lookupA (bumpCount c n) n = some ((lookupA c n).getD 0 + 1) := by
  unfold bumpCount
  by_cases h : c.any (fun p => p.1 = n)
  · rw [if_pos h, lookupA_map_bump]
    have : (lookupA c n).isSome := by
      rw [lookupA_isSome_iff]
      rcases List.any_eq_true.mp h with ⟨p, hp, hpe⟩
      exact List.mem_map.mpr ⟨p, hp, of_decide_eq_true hpe⟩
    rcases Option.isSome_iff_exists.mp this with ⟨v, hv⟩
    simp [hv]
  · have h' : c.any (fun p => p.1 = n) = false := by
      revert h
      cases c.any (fun p => p.1 = n) <;> simp
    rw [if_neg h, lookupA_append, lookupA_eq_none_of_not_any c n h']
    simp [lookupA]

/-- A keyed map update leaves lookups at other keys alone. -/
theorem lookupA_map_if_ne {β : Type} (l : List (Str × β)) (n m : Str) (hne : m ≠ n)
    (upd : β → β) :
    lookupA (l.map (fun p => if p.1 = n then (p.1, upd p.2) else p)) m = lookupA l m := by
  induction l with
  | nil => rfl
  | cons x xs ih =>
    have hy1 : (if x.1 = n then (x.1, upd x.2) else x).1 = x.1 := by
      split <;> rfl
    rw [List.map_cons, lookupA_cons, lookupA_cons, hy1]
    by_cases hxm : x.1 = m
    · have hxn : ¬ x.1 = n := fun he => hne (hxm.symm.trans he)
      rw [if_pos hxm, if_pos hxm, if_neg hxn]
    · rw [if_neg hxm, if_neg hxm, ih]

/-- `bumpCount` leaves other keys alone. -/
theorem lookupA_bumpCount_ne (c : List (Str × Nat)) (n m : Str) (hne : m ≠ n) :
    lookupA (bumpCount c n) m = lookupA c m := by
  unfold bumpCount
  by_cases h : c.any (fun p => p.1 = n)
  · rw [if_pos h]
    exact lookupA_map_if_ne c n m hne (fun v => v + 1)
  · rw [if_neg h, lookupA_append]
    cases hm : lookupA c m with
    | some v => simp
    | none => simp [lookupA, List.find?_cons, Ne.symm hne]

/-- `updateFieldInfo` at the updated key: the better of stored and new field. -/
theorem lookupA_updateFieldInfo_self (info : List (Str × ShapeField)) (n : Str)
    (f : ShapeField) :
    lookupA (updateFieldInfo info n f) n =
      some (match lookupA info n with
            | some e => choose_better_field_type e f
            | none => f) := by
  unfold updateFieldInfo
  cases h : lookupA info n with
  | some e =>
    show lookupA (info.map (fun p =>
      if p.1 = n then (p.1, choose_better_field_type e f) else p)) n =
        some (choose_better_field_type e f)
    rw [lookupA_map_setConst, h, Option.map_some']
  | none =>
    show lookupA (info ++ [(n, f)]) n = some f
    rw [lookupA_append, h]
    simp [lookupA]

/-- `updateFieldInfo` leaves other keys alone. -/
theorem lookupA_updateFieldInfo_ne (info : List (Str × ShapeField)) (n m : Str)
    (hne : m ≠ n) (f : ShapeField) :
    lookupA (updateFieldInfo info n f) m = lookupA info m := by
  unfold updateFieldInfo
  cases h : lookupA info n with
  | some e =>
    exact lookupA_map_if_ne info n m hne (fun _ => choose_better_field_type e f)
  | none =>
    show lookupA (info ++ [(n, f)]) m = lookupA info m
    rw [lookupA_append]
    cases hm : lookupA info m with
    | some v => simp
    | none => simp [lookupA, List.find?_cons, Ne.symm hne]

/-- What one pass of the `find_common_fields` inner loop does to the two maps
at an arbitrary name: names already seen are untouched; an unseen name is
bumped and its stored field updated by the *first* field of that name. -/
theorem processShapeFields_spec (fields : List ShapeField) :
    ∀ (seen : List Str) (c : List (Str × Nat)) (info : List (Str × ShapeField)) (n : Str),
      (n ∈ seen →
        lookupA (processShapeFields fields seen (c, info)).1 n = lookupA c n ∧
        lookupA (processShapeFields fields seen (c, info)).2 n = lookupA info n) ∧
      (¬ n ∈ seen →
        (fields.find? (fun f => f.name = n) = none →
          lookupA (processShapeFields fields seen (c, info)).1 n = lookupA c n ∧
          lookupA (processShapeFields fields seen (c, info)).2 n = lookupA info n) ∧
        (∀ f, fields.find? (fun f => f.name = n) = some f →
          lookupA (processShapeFields fields seen (c, info)).1 n =
            some ((lookupA c n).getD 0 + 1) ∧
          lookupA (processShapeFields fields seen (c, info)).2 n =
            some (match lookupA info n with
                  | none => f
                  | some e => choose_better_field_type e f))) := by
  induction fields with
  | nil =>
    intro seen c info n
    constructor
    · intro _
      exact ⟨rfl, rfl⟩
    · intro _
      constructor
      · intro _
        exact ⟨rfl, rfl⟩
      · intro f hf
        cases hf
  | cons g rest ih =>
    intro seen c info n
    by_cases hg : g.name ∈ seen
    · have hred : processShapeFields (g :: rest) seen (c, info) =
          processShapeFields rest seen (c, info) := by
        simp [processShapeFields, hg]
      rw [hred]
      refine ⟨fun hn => (ih seen c info n).1 hn, fun hn => ?_⟩
      have hne : ¬ g.name = n := fun he => hn (he ▸ hg)
      have hfind : (g :: rest).find? (fun f => f.name = n) =
          rest.find? (fun f => f.name = n) := by
        rw [List.find?_cons_of_neg]
        simpa using hne
      rw [hfind]
      exact (ih seen c info n).2 hn
    · have hred : processShapeFields (g :: rest) seen (c, info) =
          processShapeFields rest (g.name :: seen)
            (bumpCount c g.name, updateFieldInfo info g.name g) := by
        simp [processShapeFields, hg]
      rw [hred]
      constructor
      · intro hn
        have hne : n ≠ g.name := fun he => hg (he ▸ hn)
        have h1 := (ih (g.name :: seen) (bumpCount c g.name)
          (updateFieldInfo info g.name g) n).1 (List.mem_cons_of_mem _ hn)
        rw [lookupA_bumpCount_ne c g.name n hne,
          lookupA_updateFieldInfo_ne info g.name n hne g] at h1
        exact h1
      · intro hn
        by_cases heq : g.name = n
        · subst heq
          have hfind : (g :: rest).find? (fun f => f.name = g.name) = some g :=
            List.find?_cons_of_pos _ (by simp)
          constructor
          · intro h0
            rw [hfind] at h0
            cases h0
          intro f hf
          rw [hfind] at hf
          injection hf with hfg
          subst hfg
          have h1 := (ih (g.name :: seen) (bumpCount c g.name)
            (updateFieldInfo info g.name g) g.name).1 (List.mem_cons_self _ _)
          rw [h1.1, h1.2, lookupA_bumpCount_self, lookupA_updateFieldInfo_self]
          constructor
          · rfl
          · cases lookupA info g.name <;> rfl
        · have hne : n ≠ g.name := fun he => heq he.symm
          have hfind : (g :: rest).find? (fun f => f.name = n) =
              rest.find? (fun f => f.name = n) := by
            rw [List.find?_cons_of_neg]
            simpa using heq
          rw [hfind]
          have hn' : ¬ n ∈ g.name :: seen := by
            intro hmem
            rcases List.mem_cons.mp hmem with he | hs
            · exact hne he
            · exact hn hs
          have h2 := (ih (g.name :: seen) (bumpCount c g.name)
            (updateFieldInfo info g.name g) n).2 hn'
          rw [lookupA_bumpCount_ne c g.name n hne,
            lookupA_updateFieldInfo_ne info g.name n hne g] at h2
          exact h2

/-- The final `find_common_fields` maps, characterised by the occurrence list:
the count is the number of shapes carrying the name, and the stored field is
the left fold of `choose_better_field_type` over the occurrences. -/
theorem fcfState_spec (shapes : List Shape) (n : Str) :
    lookupA (fcfState shapes).1 n =
      (match occList shapes n with
       | [] => none
       | _ :: _ => some (occList shapes n).length) ∧
    lookupA (fcfState shapes).2 n =
      (match occList shapes n with
       | [] => none
       | h :: t => some (t.foldl choose_better_field_type h)) := by
  induction shapes using List.reverseRecOn with
  | nil => exact ⟨rfl, rfl⟩
  | append_singleton init s ih =>
    have hstate : fcfState (init ++ [s]) =
        processShapeFields s.fields [] (fcfState init) := by
      simp [fcfState, List.foldl_append]
    have hocc : occList (init ++ [s]) n =
        occList init n ++ (s.fields.find? (fun f => f.name = n)).toList := by
      unfold occList
      rw [List.filterMap_append]
      congr 1
    obtain ⟨c, info⟩ : True := trivial
    have hspec := processShapeFields_spec s.fields []
      (fcfState init).1 (fcfState init).2 n
    cases hfind : s.fields.find? (fun f => f.name = n) with
    | none =>
      have hunch := (hspec.2 (by simp)).1 hfind
      rw [hstate, hocc, hfind]
      simp only [Option.toList_none, List.append_nil]
      constructor
      · rw [show processShapeFields s.fields [] (fcfState init) =
            processShapeFields s.fields [] ((fcfState init).1, (fcfState init).2) by rfl]
        rw [hunch.1]
        exact ih.1
      · rw [show processShapeFields s.fields [] (fcfState init) =
            processShapeFields s.fields [] ((fcfState init).1, (fcfState init).2) by rfl]
        rw [hunch.2]
        exact ih.2
    | some f =>
      have hupd := (hspec.2 (by simp)).2 f hfind
      rw [hstate, hocc, hfind]
      simp only [Option.toList_some]
      rw [show processShapeFields s.fields [] (fcfState init) =
          processShapeFields s.fields [] ((fcfState init).1, (fcfState init).2) by rfl] at *
      cases hl : occList init n with
      | nil =>
        have h1 : lookupA (fcfState init).1 n = none := by
          have := ih.1
          rw [hl] at this
          exact this
        have h2 : lookupA (fcfState init).2 n = none := by
          have := ih.2
          rw [hl] at this
          exact this
        rw [hupd.1, hupd.2, h1, h2]
        exact ⟨rfl, rfl⟩
      | cons h0 t =>
        have h1 : lookupA (fcfState init).1 n = some (h0 :: t).length := by
          have := ih.1
          rw [hl] at this
          exact this
        have h2 : lookupA (fcfState init).2 n = some (t.foldl choose_better_field_type h0) := by
          have := ih.2
          rw [hl] at this
          exact this
        rw [hupd.1, hupd.2, h1, h2]
        constructor
        · simp
        · simp [List.foldl_append]

/-- `choose_better_field_type` always returns one of its two arguments. -/
theorem choose_better_mem (f1 f2 : ShapeField) :
    choose_better_field_type f1 f2 = f1 ∨ choose_better_field_type f1 f2 = f2 := by
  unfold choose_better_field_type
  by_cases h1 : f1.field_type = f2.field_type
  · rw [if_pos h1]
    exact Or.inl rfl
  rw [if_neg h1]
  by_cases h2 : f1.field_type = "i32".data ∧ f2.field_type = "i64".data
  · rw [if_pos h2]
    exact Or.inl rfl
  rw [if_neg h2]
  by_cases h3 : f1.field_type = "i64".data ∧ f2.field_type = "i32".data
  · rw [if_pos h3]
    exact Or.inr rfl
  rw [if_neg h3]
  by_cases h4 : f1.field_type = "i16".data ∧
      (f2.field_type = "i32".data ∨ f2.field_type = "i64".data)
  · rw [if_pos h4]
    exact Or.inl rfl
  rw [if_neg h4]
  by_cases h5 : (f1.field_type = "i32".data ∨ f1.field_type = "i64".data) ∧
      f2.field_type = "i16".data
  · rw [if_pos h5]
    exact Or.inr rfl
  rw [if_neg h5]
  by_cases h6 : f1.field_type = "u32".data ∧ f2.field_type = "u64".data
  · rw [if_pos h6]
    exact Or.inl rfl
  rw [if_neg h6]
  by_cases h7 : f1.field_type = "u64".data ∧ f2.field_type = "u32".data
  · rw [if_pos h7]
    exact Or.inr rfl
  rw [if_neg h7]
  by_cases h8 : f1.field_type = "u16".data ∧
      (f2.field_type = "u32".data ∨ f2.field_type = "u64".data)
  · rw [if_pos h8]
    exact Or.inl rfl
  rw [if_neg h8]
  by_cases h9 : (f1.field_type = "u32".data ∨ f1.field_type = "u64".data) ∧
      f2.field_type = "u16".data
  · rw [if_pos h9]
    exact Or.inr rfl
  rw [if_neg h9]
  by_cases h10 : f1.is_required ∧ ¬ f2.is_required
  · rw [if_pos h10]
    exact Or.inl rfl
  rw [if_neg h10]
  by_cases h11 : ¬ f1.is_required ∧ f2.is_required
  · rw [if_pos h11]
    exact Or.inr rfl
  rw [if_neg h11]
  exact Or.inl rfl

/-- A left fold of `choose_better_field_type` stays among the folded fields. -/
theorem foldl_choose_mem (t : List ShapeField) :
    ∀ h : ShapeField, t.foldl choose_better_field_type h ∈ h :: t := by
  induction t with
  | nil => intro h; exact List.mem_singleton.mpr rfl
  | cons x xs ih =>
    intro h
    have hmem := ih (choose_better_field_type h x)
    rcases List.mem_cons.mp hmem with he | hs
    · rcases choose_better_mem h x with h1 | h2
      · rw [List.foldl_cons, he, h1]
        exact List.mem_cons_self _ _
      · rw [List.foldl_cons, he, h2]
        exact List.mem_cons_of_mem _ (List.mem_cons_self _ _)
    · rw [List.foldl_cons]
      exact List.mem_cons_of_mem _ (List.mem_cons_of_mem _ hs)

/-- Every occurrence-list entry has the looked-up name and comes from one of
the shapes. -/
theorem occList_mem (shapes : List Shape) (n : Str) (f : ShapeField)
    (hf : f ∈ occList shapes n) : f.name = n ∧ ∃ s ∈ shapes, f ∈ s.fields := by
  rcases List.mem_filterMap.mp hf with ⟨s, hs, hfind⟩
  refine ⟨by simpa using List.find?_some hfind, s, hs, List.mem_of_find?_eq_some hfind⟩

/-- The stored field for a name is an occurrence fold, with that name,
drawn from the shapes. -/
theorem fcf_info_provenance (shapes : List Shape) (n : Str) (f : ShapeField)
    (h : lookupA (fcfState shapes).2 n = some f) :
    (∃ h0 t, occList shapes n = h0 :: t ∧ f = t.foldl choose_better_field_type h0) ∧
    f.name = n ∧ ∃ s ∈ shapes, f ∈ s.fields := by
  have hspec := (fcfState_spec shapes n).2
  rw [h] at hspec
  cases hl : occList shapes n with
  | nil => rw [hl] at hspec; cases hspec
  | cons h0 t =>
    rw [hl] at hspec
    have hfe : f = t.foldl choose_better_field_type h0 := by
      injection hspec.symm with he
      exact he.symm
    have hmem : f ∈ h0 :: t := hfe ▸ foldl_choose_mem t h0
    have := occList_mem shapes n f (hl ▸ hmem)
    exact ⟨⟨h0, t, rfl, hfe⟩, this⟩

/-- A `filterMap` of full length hits on every element. -/
theorem filterMap_full {α β : Type} (g : α → Option β) (l : List α)
    (h : (l.filterMap g).length = l.length) : ∀ x ∈ l, (g x).isSome := by
  induction l with
  | nil => simp
  | cons x xs ih =>
    cases hg : g x with
    | none =>
      rw [List.filterMap_cons, hg] at h
      simp only [List.length_cons] at h
      have hle := List.length_filterMap_le g xs
      omega
    | some b =>
      rw [List.filterMap_cons, hg] at h
      simp only [List.length_cons] at h
      intro y hy
      rcases List.mem_cons.mp hy with he | hs
      · rw [he, hg]; rfl
      · exact ih (by omega) y hs

/-- A `filterMap` that hits on every element has full length. -/
theorem filterMap_full_of {α β : Type} (g : α → Option β) (l : List α)
    (h : ∀ x ∈ l, (g x).isSome) : (l.filterMap g).length = l.length := by
  induction l with
  | nil => rfl
  | cons x xs ih =>
    rcases Option.isSome_iff_exists.mp (h x (List.mem_cons_self _ _)) with ⟨b, hb⟩
    rw [List.filterMap_cons, hb, List.length_cons, List.length_cons,
      ih (fun y hy => h y (List.mem_cons_of_mem _ hy))]

/-- Membership in `find_common_fields` in terms of the two maps. -/
theorem find_common_fields_mem (shapes : List Shape) (f : ShapeField) :
    f ∈ find_common_fields shapes ↔
      ∃ n, lookupA (fcfState shapes).1 n = some shapes.length ∧
        lookupA (fcfState shapes).2 n = some f := by
  unfold find_common_fields find_common_fields_ordered
  constructor
  · intro hf
    rcases List.mem_filterMap.mp hf with ⟨n, hn, hl⟩
    have hpred := (List.mem_filter.mp hn).2
    exact ⟨n, of_decide_eq_true hpred, hl⟩
  · rintro ⟨n, hc, hi⟩
    apply List.mem_filterMap.mpr
    refine ⟨n, ?_, hi⟩
    apply List.mem_filter.mpr
    refine ⟨?_, by simpa using hc⟩
    have hsome : (lookupA (fcfState shapes).1 n).isSome := by
      rw [hc]; rfl
    exact (lookupA_isSome_iff _ n).mp hsome

/-- C3: common-field extraction returns a field named `n` iff `n` appears in
every shape (each shape counted once per distinct name); the kept field is the
fold of `choose_better_field_type` over the per-shape first occurrences; and
that choice prefers the smaller-width integer type in either argument order,
then (for differing types outside the integer table) the required field, and
otherwise keeps the first field encountered. -/
theorem find_common_fields_spec :
    (∀ (shapes : List Shape) (n : Str), shapes ≠ [] →
      ((∃ f ∈ find_common_fields shapes, f.name = n) ↔
        ∀ s ∈ shapes, ∃ g ∈ s.fields, g.name = n)) ∧
    (∀ (shapes : List Shape) (f : ShapeField), f ∈ find_common_fields shapes →
      ∃ h0 t, occList shapes f.name = h0 :: t ∧
        f = t.foldl choose_better_field_type h0) ∧
    (∀ f1 f2 : ShapeField, intWinsOver f1.field_type f2.field_type →
      choose_better_field_type f1 f2 = f1 ∧ choose_better_field_type f2 f1 = f1) ∧
    (∀ f1 f2 : ShapeField,
      ¬ intWinsOver f1.field_type f2.field_type →
      ¬ intWinsOver f2.field_type f1.field_type →
      f1.field_type ≠ f2.field_type →
      (f1.is_required = true → f2.is_required = false →
        choose_better_field_type f1 f2 = f1) ∧
      (f1.is_required = false → f2.is_required = true →
        choose_better_field_type f1 f2 = f2)) ∧
    (∀ f1 f2 : ShapeField,
      ¬ intWinsOver f1.field_type f2.field_type →
      ¬ intWinsOver f2.field_type f1.field_type →
      f1.is_required = f2.is_required → choose_better_field_type f1 f2 = f1) := by
  refine ⟨?_, ?_, ?_, ?_, ?_⟩
  · intro shapes n hne
    constructor
    · rintro ⟨f, hf, hfn⟩
      rcases (find_common_fields_mem shapes f).mp hf with ⟨m, hc, hi⟩
      have hprov := fcf_info_provenance shapes m f hi
      have hmn : m = n := hprov.2.1.symm.trans hfn
      subst hmn
      have hocc := (fcfState_spec shapes m).1
      rw [hc] at hocc
      cases hl : occList shapes m with
      | nil => rw [hl] at hocc; cases hocc
      | cons h0 t =>
        rw [hl] at hocc
        have hlen : (occList shapes m).length = shapes.length := by
          rw [hl]
          injection hocc with he
          exact he.symm
        intro s hs
        have hsome := filterMap_full _ shapes hlen s hs
        rcases Option.isSome_iff_exists.mp hsome with ⟨g, hg⟩
        exact ⟨g, List.mem_of_find?_eq_some hg, by simpa using List.find?_some hg⟩
    · intro hall
      have hfull : ∀ s ∈ shapes, (s.fields.find? (fun f => f.name = n)).isSome := by
        intro s hs
        rcases hall s hs with ⟨g, hg, hgn⟩
        exact List.find?_isSome.mpr ⟨g, hg, by simpa using hgn⟩
      have hlen : (occList shapes n).length = shapes.length :=
        filterMap_full_of _ _ hfull
      cases hl : occList shapes n with
      | nil =>
        rw [hl] at hlen
        simp only [List.length_nil] at hlen
        exact absurd (List.length_eq_zero.mp hlen.symm) hne
      | cons h0 t =>
        have hc : lookupA (fcfState shapes).1 n = some shapes.length := by
          have := (fcfState_spec shapes n).1
          rw [hl] at this
          rw [this, ← hlen, hl]
        have hi : lookupA (fcfState shapes).2 n =
            some (t.foldl choose_better_field_type h0) := by
          have := (fcfState_spec shapes n).2
          rw [hl] at this
          exact this
        refine ⟨t.foldl choose_better_field_type h0,
          (find_common_fields_mem shapes _).mpr ⟨n, hc, hi⟩, ?_⟩
        exact (occList_mem shapes n _ (hl ▸ foldl_choose_mem t h0)).1
  · intro shapes f hf
    rcases (find_common_fields_mem shapes f).mp hf with ⟨m, _, hi⟩
    have hprov := fcf_info_provenance shapes m f hi
    rcases hprov.1 with ⟨h0, t, hocc, hfold⟩
    exact ⟨h0, t, by rw [hprov.2.1, hocc], hfold⟩
  · intro f1 f2 hw
    rcases hw with ⟨ha, hb | hb⟩ | ⟨ha, hb⟩ | ⟨ha, hb | hb⟩ | ⟨ha, hb⟩ <;>
      exact ⟨by simp [choose_better_field_type, ha, hb],
        by simp [choose_better_field_type, ha, hb]⟩
  · intro f1 f2 hw1 hw2 hneq
    have hc2 : ¬ (f1.field_type = "i32".data ∧ f2.field_type = "i64".data) :=
      fun hc => hw1 (Or.inr (Or.inl hc))
    have hc3 : ¬ (f1.field_type = "i64".data ∧ f2.field_type = "i32".data) :=
      fun hc => hw2 (Or.inr (Or.inl ⟨hc.2, hc.1⟩))
    have hc4 : ¬ (f1.field_type = "i16".data ∧
        (f2.field_type = "i32".data ∨ f2.field_type = "i64".data)) :=
      fun hc => hw1 (Or.inl hc)
    have hc5 : ¬ ((f1.field_type = "i32".data ∨ f1.field_type = "i64".data) ∧
        f2.field_type = "i16".data) :=
      fun hc => hw2 (Or.inl ⟨hc.2, hc.1⟩)
    have hc6 : ¬ (f1.field_type = "u32".data ∧ f2.field_type = "u64".data) :=
      fun hc => hw1 (Or.inr (Or.inr (Or.inr hc)))
    have hc7 : ¬ (f1.field_type = "u64".data ∧ f2.field_type = "u32".data) :=
      fun hc => hw2 (Or.inr (Or.inr (Or.inr ⟨hc.2, hc.1⟩)))
    have hc8 : ¬ (f1.field_type = "u16".data ∧
        (f2.field_type = "u32".data ∨ f2.field_type = "u64".data)) :=
      fun hc => hw1 (Or.inr (Or.inr (Or.inl hc)))
    have hc9 : ¬ ((f1.field_type = "u32".data ∨ f1.field_type = "u64".data) ∧
        f2.field_type = "u16".data) :=
      fun hc => hw2 (Or.inr (Or.inr (Or.inl ⟨hc.2, hc.1⟩)))
    constructor
    · intro hr1 hr2
      unfold choose_better_field_type
      rw [if_neg hneq, if_neg hc2, if_neg hc3, if_neg hc4, if_neg hc5, if_neg hc6,
        if_neg hc7, if_neg hc8, if_neg hc9, if_pos ⟨hr1, by simp [hr2]⟩]
    · intro hr1 hr2
      unfold choose_better_field_type
      rw [if_neg hneq, if_neg hc2, if_neg hc3, if_neg hc4, if_neg hc5, if_neg hc6,
        if_neg hc7, if_neg hc8, if_neg hc9,
        if_neg (fun hc => by rw [hr1] at hc; exact absurd hc.1 (by simp)),
        if_pos ⟨by simp [hr1], hr2⟩]
  · intro f1 f2 hw1 hw2 hreq
    by_cases heq : f1.field_type = f2.field_type
    · unfold choose_better_field_type
      rw [if_pos heq]
    · have hc2 : ¬ (f1.field_type = "i32".data ∧ f2.field_type = "i64".data) :=
        fun hc => hw1 (Or.inr (Or.inl hc))
      have hc3 : ¬ (f1.field_type = "i64".data ∧ f2.field_type = "i32".data) :=
        fun hc => hw2 (Or.inr (Or.inl ⟨hc.2, hc.1⟩))
      have hc4 : ¬ (f1.field_type = "i16".data ∧
          (f2.field_type = "i32".data ∨ f2.field_type = "i64".data)) :=
        fun hc => hw1 (Or.inl hc)
      have hc5 : ¬ ((f1.field_type = "i32".data ∨ f1.field_type = "i64".data) ∧
          f2.field_type = "i16".data) :=
        fun hc => hw2 (Or.inl ⟨hc.2, hc.1⟩)
      have hc6 : ¬ (f1.field_type = "u32".data ∧ f2.field_type = "u64".data) :=
        fun hc => hw1 (Or.inr (Or.inr (Or.inr hc)))
      have hc7 : ¬ (f1.field_type = "u64".data ∧ f2.field_type = "u32".data) :=
        fun hc => hw2 (Or.inr (Or.inr (Or.inr ⟨hc.2, hc.1⟩)))
      have hc8 : ¬ (f1.field_type = "u16".data ∧
          (f2.field_type = "u32".data ∨ f2.field_type = "u64".data)) :=
        fun hc => hw1 (Or.inr (Or.inr (Or.inl hc)))
      have hc9 : ¬ ((f1.field_type = "u32".data ∨ f1.field_type = "u64".data) ∧
          f2.field_type = "u16".data) :=
        fun hc => hw2 (Or.inr (Or.inr (Or.inl ⟨hc.2, hc.1⟩)))
      unfold choose_better_field_type
      rw [if_neg heq, if_neg hc2, if_neg hc3, if_neg hc4, if_neg hc5, if_neg hc6,
        if_neg hc7, if_neg hc8, if_neg hc9,
        if_neg (fun hc => hc.2 (by rw [← hreq]; exact hc.1)),
        if_neg (fun hc => hc.1 (by rw [hreq]; exact hc.2))]

/-- Witness for `find_common_fields_spec` at concrete inputs. -/
theorem find_common_fields_spec_witness :
    ((∃ f ∈ find_common_fields [exAB, exAB], f.name = "a".data) ↔
      ∀ s ∈ [exAB, exAB], ∃ g ∈ s.fields, g.name = "a".data) ∧
    (∃ h0 t, occList [exAB, exAB] (⟨"a".data, "i64".data, true⟩ : ShapeField).name =
        h0 :: t ∧
      (⟨"a".data, "i64".data, true⟩ : ShapeField) = t.foldl choose_better_field_type h0) ∧
    choose_better_field_type ⟨"v".data, "i16".data, false⟩ ⟨"v".data, "i64".data, true⟩ =
      ⟨"v".data, "i16".data, false⟩ ∧
    choose_better_field_type ⟨"v".data, "String".data, true⟩ ⟨"v".data, "bool".data, false⟩ =
      ⟨"v".data, "String".data, true⟩ ∧
    choose_better_field_type ⟨"v".data, "String".data, true⟩ ⟨"w".data, "bool".data, true⟩ =
      ⟨"v".data, "String".data, true⟩ :=
  ⟨find_common_fields_spec.1 [exAB, exAB] "a".data (by decide),
   find_common_fields_spec.2.1 [exAB, exAB] ⟨"a".data, "i64".data, true⟩ (by decide),
   (find_common_fields_spec.2.2.1 ⟨"v".data, "i16".data, false⟩
     ⟨"v".data, "i64".data, true⟩ (by decide)).1,
   (find_common_fields_spec.2.2.2.1 ⟨"v".data, "String".data, true⟩
     ⟨"v".data, "bool".data, false⟩ (by decide) (by decide) (by decide)).1 rfl rfl,
   find_common_fields_spec.2.2.2.2 ⟨"v".data, "String".data, true⟩
     ⟨"w".data, "bool".data, true⟩ (by decide) (by decide) rfl⟩

/-- Elements produced by a guarded-append fold are either initial or the image
of a processed element. -/
theorem foldl_dedup_mem {α : Type} (p : List α → α → Bool) (h : α → α) :
    ∀ (all acc : List α) (f : α),
      f ∈ all.foldl (fun acc x => if p acc x then acc else acc ++ [h x]) acc →
      f ∈ acc ∨ ∃ x ∈ all, f = h x := by
  intro all
  induction all with
  | nil => intro acc f hf; exact Or.inl hf
  | cons x xs ih =>
    intro acc f hf
    rw [List.foldl_cons] at hf
    by_cases hp : p acc x
    · rw [if_pos hp] at hf
      rcases ih acc f hf with h1 | ⟨y, hy, he⟩
      · exact Or.inl h1
      · exact Or.inr ⟨y, List.mem_cons_of_mem _ hy, he⟩
    · rw [if_neg hp] at hf
      rcases ih (acc ++ [h x]) f hf with h1 | ⟨y, hy, he⟩
      · rcases List.mem_append.mp h1 with h2 | h2
        · exact Or.inl h2
        · exact Or.inr ⟨x, List.mem_cons_self _ _, List.mem_singleton.mp h2⟩
      · exact Or.inr ⟨y, List.mem_cons_of_mem _ hy, he⟩

/-- Prefixes restrict to prefixes of the `take`s. -/
theorem take_pref_of_pref {α : Type} (p s : List α) (k : Nat) (h : p <+: s) :
    p.take k <+: s.take k := by
  rcases h with ⟨r, rfl⟩
  rw [List.take_append_eq_append_take]
  exact List.prefix_append _ _

/-- A prefix agrees with its host on any initial segment it covers. -/
theorem take_eq_of_pref {α : Type} (p s : List α) (k : Nat) (h : p <+: s)
    (hk : k ≤ p.length) : p.take k = s.take k := by
  refine (take_pref_of_pref p s k h).eq_of_length ?_
  rw [List.length_take, List.length_take]
  have := h.length_le
  omega

/-- A string ending in `<` cannot be a prefix of `t ++ [>]` unless `t`
contains it. -/
theorem opt_prefix_concat_absurd (q t : Str) (hlast : q.getLast? = some '<')
    (hcontains : strContains t q = false) (hp : q <+: t ++ ['>']) : False := by
  by_cases hlen : q.length ≤ t.length
  · have htake : q.take q.length = (t ++ ['>']).take q.length :=
      take_eq_of_pref q (t ++ ['>']) q.length hp (le_refl _)
    rw [List.take_length, List.take_append_eq_append_take,
      Nat.sub_eq_zero_of_le hlen, List.take_zero, List.append_nil] at htake
    have hqt : q <+: t := htake ▸ List.take_prefix q.length t
    have : strContains t q = true := by
      unfold strContains
      refine List.any_eq_true.mpr ⟨0, List.mem_range.mpr (by omega), ?_⟩
      rw [List.drop_zero]
      exact List.isPrefixOf_iff_prefix.mpr hqt
    rw [hcontains] at this
    cases this
  · have hle := hp.length_le
    rw [List.length_append, List.length_singleton] at hle
    have heq : q = t ++ ['>'] := hp.eq_of_length (by
      rw [List.length_append, List.length_singleton]
      omega)
    have hl2 : q.getLast? = some '>' := by rw [heq]; exact List.getLast?_concat _
    rw [hlast] at hl2
    injection hl2 with hc
    cases hc

/-- The type produced by the optional-wrapping step never carries a double
wrapper. -/
theorem wrap_noDoubleOpt (t : Str) (h1 : strContains t optPlain = false)
    (h2 : strContains t optSpaced = false) :
    noDoubleOpt (optPlain ++ t ++ ['>']) := by
  have hassoc : optPlain ++ t ++ ['>'] = optPlain ++ (t ++ ['>']) := by
    rw [List.append_assoc]
  refine ⟨?_, ?_, ?_, ?_⟩
  · intro hp
    rw [List.isPrefixOf_iff_prefix, hassoc,
      show ("Option<Option<".data : Str) = optPlain ++ optPlain by rfl,
      List.prefix_append_right_inj] at hp
    exact opt_prefix_concat_absurd optPlain t (by decide) h1 hp
  · intro hp
    rw [List.isPrefixOf_iff_prefix, hassoc] at hp
    have := take_eq_of_pref _ _ 7 hp (by decide)
    rw [List.take_append_eq_append_take,
      show (optPlain.take 7 : Str) = optPlain by decide,
      show (7 - optPlain.length : Nat) = 0 by decide, List.take_zero,
      List.append_nil] at this
    have hfalse : ("Option < Option <".data.take 7 : Str) = optPlain := this
    revert hfalse
    decide
  · intro hp
    rw [List.isPrefixOf_iff_prefix, hassoc,
      show ("Option<Option <".data : Str) = optPlain ++ optSpaced by rfl,
      List.prefix_append_right_inj] at hp
    exact opt_prefix_concat_absurd optSpaced t (by decide) h2 hp
  · intro hp
    rw [List.isPrefixOf_iff_prefix, hassoc] at hp
    have := take_eq_of_pref _ _ 7 hp (by decide)
    rw [List.take_append_eq_append_take,
      show (optPlain.take 7 : Str) = optPlain by decide,
      show (7 - optPlain.length : Nat) = 0 by decide, List.take_zero,
      List.append_nil] at this
    have hfalse : ("Option < Option<".data.take 7 : Str) = optPlain := this
    revert hfalse
    decide

/-- A field whose type carries no double wrapper passes `clean_field_types`
unchanged. -/
theorem cleanOne_id_of_noDoubleOpt (f : ShapeField) (h : noDoubleOpt f.field_type) :
    cleanOneFieldType f = f := by
  unfold cleanOneFieldType
  rw [if_neg (fun hc => h.1 hc.1), if_neg (fun hc => h.2.1 hc.1)]

/-- `getD` returns a list element or the default. -/
theorem getD_mem_or {α : Type} (l : List α) (i : Nat) (d : α) :
    l.getD i d ∈ l ∨ l.getD i d = d := by
  by_cases hi : i < l.length
  · left
    rw [List.getD_eq_getElem l d hi]
    exact List.getElem_mem hi
  · right
    exact List.getD_eq_default l d (by omega)

/-- Every common field is drawn from the input shapes. -/
theorem find_common_fields_from_inputs (ss : List Shape) :
    ∀ f ∈ find_common_fields ss, ∃ s ∈ ss, f ∈ s.fields := by
  intro f hf
  rcases (find_common_fields_mem ss f).mp hf with ⟨n, _, hi⟩
  exact (fcf_info_provenance ss n f hi).2.2

/-- Every collected field is drawn from the input shapes. -/
theorem collect_all_fields_from_inputs (ss : List Shape) :
    ∀ f ∈ collect_all_fields ss, ∃ s ∈ ss, f ∈ s.fields := by
  intro f hf
  unfold collect_all_fields at hf
  rcases foldl_dedup_mem (fun acc g => acc.any (fun g2 => g2.name = g.name))
      (fun g => g) _ _ f hf with h1 | ⟨x, hx, he⟩
  · cases h1
  · rcases List.mem_flatMap.mp hx with ⟨s, hs, hfs⟩
    exact ⟨s, hs, he ▸ hfs⟩

/-- The optional-wrapping step preserves absence of double wrappers. -/
theorem wrapOptionalIfNeeded_ok (x : ShapeField) (hx : noDoubleOpt x.field_type) :
    noDoubleOpt (wrapOptionalIfNeeded x).field_type := by
  unfold wrapOptionalIfNeeded
  by_cases hc : (¬ optPlain.isPrefixOf x.field_type = true ∧
      ¬ optSpaced.isPrefixOf x.field_type = true ∧
      ¬ strContains x.field_type optPlain = true ∧
      ¬ strContains x.field_type optSpaced = true)
  · rw [if_pos hc]
    exact wrap_noDoubleOpt x.field_type
      (Bool.eq_false_iff.mpr hc.2.2.1) (Bool.eq_false_iff.mpr hc.2.2.2)
  · rw [if_neg hc]
    exact hx

/-- C8: the field-type cleaning collapses a double optional wrapper to a
single one, and a merged variant never carries a double optional wrapper:
`create_merged_variant` wraps only types that mention no optional wrapper, so
when the input shapes carry no doubly-wrapped type (in any bracket spelling),
neither does any field of its output. -/
theorem double_optional_collapse :
    (∀ (n t : Str) (r : Bool),
      clean_field_types [⟨n, "Option<Option<".data ++ t ++ ">>".data, r⟩] =
        [⟨n, optPlain ++ t ++ ['>'], r⟩]) ∧
    (∀ (indices : List Nat) (shapes : List Shape),
      (∀ s ∈ shapes, ∀ g ∈ s.fields, noDoubleOpt g.field_type) →
      ∀ f ∈ (create_merged_variant indices shapes).fields, noDoubleOpt f.field_type) := by
  constructor
  · intro n t r
    have hpre : "Option<Option<".data.isPrefixOf
        ("Option<Option<".data ++ t ++ ">>".data) = true := by
      apply List.isPrefixOf_iff_prefix.mpr
      rw [List.append_assoc]
      exact List.prefix_append _ _
    have hsuf : ">>".data.isSuffixOf
        ("Option<Option<".data ++ t ++ ">>".data) = true := by
      apply List.isSuffixOf_iff_suffix.mpr
      exact List.suffix_append _ _
    have hdrop : (("Option<Option<".data ++ t ++ ">>".data).drop 14 : Str) =
        t ++ ">>".data := by
      rw [List.append_assoc,
        show (14 : Nat) = ("Option<Option<".data : Str).length from rfl,
        List.drop_left]
    have htake : strDropRight (t ++ ">>".data) 2 = t := by
      unfold strDropRight
      rw [List.length_append, show ((">>".data : Str)).length = 2 from rfl,
        Nat.add_sub_cancel, List.take_left]
    unfold clean_field_types
    rw [List.map_cons, List.map_nil]
    congr 1
    unfold cleanOneFieldType
    rw [if_pos ⟨hpre, hsuf⟩]
    show (⟨n, optPlain ++
        strDropRight (("Option<Option<".data ++ t ++ ">>".data).drop 14) 2 ++ ['>'], r⟩ :
      ShapeField) = ⟨n, optPlain ++ t ++ ['>'], r⟩
    rw [hdrop, htake]
  · intro indices shapes hin f hf
    have hvs_ok : ∀ s ∈ indices.map (fun k => shapes.getD k dfltShape),
        ∀ g ∈ s.fields, noDoubleOpt g.field_type := by
      intro s hs g hg
      rcases List.mem_map.mp hs with ⟨k, _, rfl⟩
      rcases getD_mem_or shapes k dfltShape with hmem | hdf
      · exact hin _ hmem g hg
      · rw [hdf] at hg
        cases hg
    rcases indices with _ | ⟨i, rest⟩
    · rw [show (create_merged_variant [] shapes).fields = [] from rfl] at hf
      cases hf
    rcases rest with _ | ⟨j, rest2⟩
    · rw [show (create_merged_variant [i] shapes).fields =
          (shapes.getD i dfltShape).fields from rfl] at hf
      rcases getD_mem_or shapes i dfltShape with hmem | hdf
      · exact hin _ hmem f hf
      · rw [hdf] at hf
        cases hf
    · have hfe : (create_merged_variant (i :: j :: rest2) shapes).fields =
          clean_field_types
            ((collect_all_fields ((i :: j :: rest2).map (fun k => shapes.getD k dfltShape))).foldl
              (fun acc f => if acc.any (fun g => g.name = f.name) then acc
                else acc ++ [wrapOptionalIfNeeded f])
              (find_common_fields ((i :: j :: rest2).map (fun k => shapes.getD k dfltShape)))) :=
        rfl
      rw [hfe] at hf
      unfold clean_field_types at hf
      rcases List.mem_map.mp hf with ⟨g, hg, rfl⟩
      rcases foldl_dedup_mem (fun acc f => acc.any (fun g2 => g2.name = f.name))
          wrapOptionalIfNeeded _ _ g hg with h1 | ⟨x, hx, rfl⟩
      · rcases find_common_fields_from_inputs _ g h1 with ⟨s, hs, hgs⟩
        have hok := hvs_ok s hs g hgs
        rw [cleanOne_id_of_noDoubleOpt g hok]
        exact hok
      · rcases collect_all_fields_from_inputs _ x hx with ⟨s, hs, hxs⟩
        have hxok := hvs_ok s hs x hxs
        have hwok := wrapOptionalIfNeeded_ok x hxok
        rw [cleanOne_id_of_noDoubleOpt _ hwok]
        exact hwok

/-- Witness for `double_optional_collapse` at concrete inputs. -/
theorem double_optional_collapse_witness :
    clean_field_types [⟨"x".data, "Option<Option<".data ++ "i64".data ++ ">>".data, true⟩] =
      [⟨"x".data, optPlain ++ "i64".data ++ ['>'], true⟩] ∧
    noDoubleOpt (⟨"a".data, "Option<i64>".data, true⟩ : ShapeField).field_type :=
  ⟨double_optional_collapse.1 "x".data "i64".data true,
   double_optional_collapse.2 [0, 1] [exA, exB] (by decide)
     ⟨"a".data, "Option<i64>".data, true⟩ (by decide)⟩

/-- The `(score, matched)` loop of `calculate_variant_compatibility` computed
in closed form: 10 points per sample field with a name match (plus 5 for
compatible types), and the matched count. -/
theorem calcVariantLoop_spec (fields : List ShapeField) (vfs : List FieldInfo) :
    ∀ (s m : Nat),
      calcVariantLoop fields vfs (s, m) =
        (s + (fields.map (fun jf =>
          match vfs.find? (fun vf => vf.name = jf.name) with
          | some vf =>
            10 + (if evolution_types_compatible jf.field_type vf.field_type then 5 else 0)
          | none => 0)).sum,
         m + (fields.filter
          (fun jf => (vfs.find? (fun vf => vf.name = jf.name)).isSome)).length) := by
  induction fields with
  | nil => intro s m; simp [calcVariantLoop]
  | cons jf rest ih =>
    intro s m
    cases hfind : vfs.find? (fun vf => vf.name = jf.name) with
    | some vf =>
      have hstep : calcVariantLoop (jf :: rest) vfs (s, m) =
          calcVariantLoop rest vfs
            (s + 10 + (if evolution_types_compatible jf.field_type vf.field_type
              then 5 else 0), m + 1) := by
        simp [calcVariantLoop, hfind]
      rw [hstep, ih]
      simp only [List.map_cons, List.sum_cons, List.filter_cons, hfind,
        Option.isSome_some, List.length_cons]
      generalize (if evolution_types_compatible jf.field_type vf.field_type
        then 5 else 0) = x
      rw [Prod.mk.injEq]
      constructor
      · ring
      · simp only [if_true, List.length_cons]
        ring
    | none =>
      have hstep : calcVariantLoop (jf :: rest) vfs (s, m) =
          calcVariantLoop rest vfs (s, m) := by
        simp [calcVariantLoop, hfind]
      rw [hstep, ih]
      simp only [List.map_cons, List.sum_cons, List.filter_cons, hfind,
        Option.isSome_none, List.length_cons]
      rw [Prod.mk.injEq]
      constructor
      · omega
      · simp

/-- C7 (amended): the variant-vs-sample score is the sum over sample fields
with a name match in the variant of 10 points (plus 5 when the containment
based type compatibility holds), plus the *truncation* of the `f32`
computation of `10 * matched / max(total_variant_fields, 1)` as coverage
bonus (not rounding to nearest), minus `2 * unmatched_sample_fields` when the
sample has more unmatched fields than the variant has fields, with the
subtraction saturating at 0. -/
theorem calculate_variant_compatibility_spec (json_shape : Shape)
    (variant : VariantInfo) (vfs : List FieldInfo) (hv : variant.fields = some vfs) :
    calculate_variant_compatibility json_shape variant =
      (let base := (json_shape.fields.map (fun jf =>
          match vfs.find? (fun vf => vf.name = jf.name) with
          | some vf =>
            10 + (if evolution_types_compatible jf.field_type vf.field_type then 5 else 0)
          | none => 0)).sum
       let m := (json_shape.fields.filter
          (fun jf => (vfs.find? (fun vf => vf.name = jf.name)).isSome)).length
       let pre := base + coverageBonus m vfs.length
       if vfs.length < json_shape.fields.length - m then
         pre - (json_shape.fields.length - m) * 2
       else pre) := by
  unfold calculate_variant_compatibility
  rw [hv]
  show (let st := calcVariantLoop json_shape.fields vfs (0, 0)
        let score := st.1 + coverageBonus st.2 vfs.length
        let unmatched := json_shape.fields.length - st.2
        if vfs.length < unmatched then score - unmatched * 2 else score) = _
  rw [calcVariantLoop_spec json_shape.fields vfs 0 0]
  simp

/-- C7 (counterexample): with 2 of 3 variant fields matched the code's `f32`
coverage bonus truncates `10 * 2/3 = 6.67` to 6 (total score 36), while the
claimed `round` gives 7 (total score 37). -/
theorem variant_score_round_counterexample :
    calculate_variant_compatibility c7Sample c7Variant = 36 ∧
    spec_variant_score c7Sample c7Variant = 37 ∧
    coverageBonus 2 3 = 6 ∧
    roundNearestFrac (10 * 2) 3 = 7 := by decide

/-- Witness for `calculate_variant_compatibility_spec` at concrete inputs. -/
theorem calculate_variant_compatibility_spec_witness :
    calculate_variant_compatibility c7Sample c7Variant = 36 := by
  rw [calculate_variant_compatibility_spec c7Sample c7Variant
    [⟨"a".data, "i64".data, false⟩, ⟨"b".data, "i64".data, false⟩,
     ⟨"c".data, "i64".data, false⟩] rfl]
  decide

/-- With no untagged-enum fields, the field-folding loop just appends one base
field per input field to every accumulated shape. -/
theorem expandFieldsGo_plain (kt : KnownTypes) :
    ∀ (fields : List FieldInfo) (fuel : Nat) (acc : List Shape),
      (∀ f ∈ fields, lookupUntaggedEnum kt (effFieldType f) = none) →
      fields.length ≤ fuel →
      expandFieldsGo fuel kt fields acc =
        some (acc.map (fun s => { s with fields := s.fields ++ fields.map mkBaseField })) := by
  intro fields
  induction fields with
  | nil =>
    intro fuel acc _ _
    cases fuel <;> simp [expandFieldsGo]
  | cons f rest ih =>
    intro fuel acc hun hlen
    cases fuel with
    | zero => simp at hlen
    | succ fuel =>
      have hf := hun f (List.mem_cons_self _ _)
      have hstep : expandFieldsGo (fuel + 1) kt (f :: rest) acc =
          expandFieldsGo fuel kt rest (acc.map (fun s =>
            { s with fields := s.fields ++ [mkBaseField f] })) := by
        simp [expandFieldsGo, hf, mkBaseField]
      rw [hstep, ih fuel _ (fun g hg => hun g (List.mem_cons_of_mem _ hg))
        (by simp at hlen; omega)]
      rw [List.map_map]
      have hfun : ((fun s : Shape =>
            ({ fields := s.fields ++ List.map mkBaseField rest,
               metadata := s.metadata } : Shape)) ∘
          fun s : Shape =>
            ({ fields := s.fields ++ [mkBaseField f], metadata := s.metadata } : Shape)) =
          (fun s : Shape =>
            ({ fields := s.fields ++ List.map mkBaseField (f :: rest),
               metadata := s.metadata } : Shape)) := by
        funext s
        simp [Function.comp, List.append_assoc]
      rw [hfun]

/-- With no untagged-enum fields, `expand_struct_shapes` reduces to the
optional-combination enumeration over the single base shape built from the
input fields in order. -/
theorem expand_struct_shapes_plain (kt : KnownTypes) (fields : List FieldInfo) (fuel : Nat)
    (hun : ∀ f ∈ fields, lookupUntaggedEnum kt (effFieldType f) = none)
    (hfuel : fields.length ≤ fuel) :
    expand_struct_shapes (fuel + 1) kt fields =
      some (expandOptionalCombos
        { fields := fields.map mkBaseField, metadata := metadataNew }) := by
  show (match expandFieldsGo fuel kt fields [{ fields := [], metadata := metadataNew }] with
    | none => none
    | some base_shapes => some (base_shapes.flatMap expandOptionalCombos)) = _
  rw [expandFieldsGo_plain kt fields fuel _ hun hfuel]
  simp

/-- Filtering an enumerated list by a predicate on the payloads keeps as many
entries as filtering the plain list. -/
theorem enumFrom_filter_snd_length {α : Type} (q : α → Bool) :
    ∀ (l : List α) (n : Nat),
      ((l.enumFrom n).filter (fun p => q p.2)).length = (l.filter q).length := by
  intro l
  induction l with
  | nil => intro n; rfl
  | cons a t ih =>
    intro n
    show (List.filter _ ((n, a) :: List.enumFrom (n + 1) t)).length = _
    cases hq : q a <;> simp [List.filter, hq, ih (n + 1)]

/-- The optional-index list is as long as the list of not-required fields. -/
theorem optionalFieldIndices_length (bf : List ShapeField) :
    (optionalFieldIndices bf).length =
      (bf.filter (fun f => !f.is_required)).length := by
  unfold optionalFieldIndices
  rw [List.length_map]
  have h := enumFrom_filter_snd_length (fun f : ShapeField => !f.is_required) bf 0
  simpa [List.enum] using h

/-- The optional-index list is a sublist of `range bf.length`. -/
theorem optionalFieldIndices_sublist_range (bf : List ShapeField) :
    (optionalFieldIndices bf).Sublist (List.range bf.length) := by
  unfold optionalFieldIndices
  have h1 : (bf.enum.filter (fun p => !p.2.is_required)).Sublist bf.enum :=
    List.filter_sublist _
  have h2 := h1.map Prod.fst
  rw [List.enum_map_fst] at h2
  exact h2

/-- The optional indices are pairwise distinct. -/
theorem optionalFieldIndices_nodup (bf : List ShapeField) :
    (optionalFieldIndices bf).Nodup :=
  (List.nodup_range _).sublist (optionalFieldIndices_sublist_range bf)

/-- An index is optional exactly when the field there is not required. -/
theorem mem_optionalFieldIndices (bf : List ShapeField) (idx : Nat) :
    idx ∈ optionalFieldIndices bf ↔
      ∃ fld, bf[idx]? = some fld ∧ fld.is_required = false := by
  unfold optionalFieldIndices
  simp only [List.mem_map, List.mem_filter]
  constructor
  · rintro ⟨⟨j, fld⟩, ⟨hmem, hreq⟩, rfl⟩
    exact ⟨fld, List.mk_mem_enum_iff_getElem?.mp hmem, by simpa using hreq⟩
  · rintro ⟨fld, hget, hreq⟩
    exact ⟨(idx, fld), ⟨List.mk_mem_enum_iff_getElem?.mpr hget, by simp [hreq]⟩, rfl⟩

/-- On a duplicate-free list, searching for the element at position `pos`
finds exactly `pos`. -/
theorem findIdx_self (l : List Nat) (hN : l.Nodup) :
    ∀ (pos : Nat) (h : pos < l.length),
      l.findIdx? (fun x => x == l.get ⟨pos, h⟩) = some pos := by
  induction l with
  | nil => intro pos h; simp at h
  | cons a t ih =>
    intro pos h
    cases pos with
    | zero => simp [List.findIdx?_cons]
    | succ p =>
      have hp : p < t.length := by simpa using h
      have hne : a ≠ t.get ⟨p, hp⟩ := by
        intro he
        exact (List.nodup_cons.mp hN).1 (he ▸ List.get_mem t p hp)
      rw [List.findIdx?_cons]
      simp only [List.get_eq_getElem] at hne ⊢
      rw [if_neg (by simp [hne]), List.findIdx?_succ]
      have hih := ih (List.nodup_cons.mp hN).2 p hp
      simp only [List.get_eq_getElem] at hih
      rw [show (a :: t)[p + 1] = t[p] from rfl, hih]
      rfl

/-- The combination-loop bit test agrees with `Nat.testBit`. -/
theorem bitSet_eq_testBit (i pos : Nat) : bitSet i pos = Nat.testBit i pos := by
  simp [bitSet, Nat.testBit, Nat.and_one_is_mod, Nat.shiftRight_eq_div_pow]

/-- Every field of a combination comes from the base fields: required fields
unchanged, optional fields unwrapped and made required. -/
theorem mem_subsetFields (bf : List ShapeField) (optIdx : List Nat) (i : Nat)
    (fl : ShapeField) (h : fl ∈ subsetFields bf optIdx i) :
    ∃ fld ∈ bf,
      (fld.is_required = true ∧ fl = fld) ∨
      (fld.is_required = false ∧
        fl = { name := fld.name, field_type := unwrap_option_type fld.field_type,
               is_required := true }) := by
  unfold subsetFields at h
  rw [List.mem_flatMap] at h
  obtain ⟨⟨j, fld⟩, hmem, hin⟩ := h
  have hbf : fld ∈ bf :=
    List.mem_iff_getElem?.mpr ⟨j, List.mk_mem_enum_iff_getElem?.mp hmem⟩
  refine ⟨fld, hbf, ?_⟩
  cases hreq : fld.is_required with
  | true =>
    left
    refine ⟨rfl, ?_⟩
    simp [hreq] at hin
    exact hin
  | false =>
    right
    refine ⟨rfl, ?_⟩
    simp [hreq] at hin
    unfold includeOptionalField at hin
    rcases hfi : optIdx.findIdx? (fun x => x == j) with _ | pos
    · rw [hfi] at hin; simp at hin
    · rw [hfi] at hin
      cases hbit : bitSet i pos with
      | true => simp [hbit] at hin; simpa using hin
      | false => simp [hbit] at hin

/-- A required base field survives into every combination. -/
theorem required_mem_subsetFields (bf : List ShapeField) (optIdx : List Nat)
    (i j : Nat) (fld : ShapeField) (hget : bf[j]? = some fld)
    (hreq : fld.is_required = true) :
    fld ∈ subsetFields bf optIdx i := by
  unfold subsetFields
  rw [List.mem_flatMap]
  exact ⟨(j, fld), List.mk_mem_enum_iff_getElem?.mpr hget, by simp [hreq]⟩

/-- With duplicate-free field names, the name of the optional field at
position `pos` of the index list appears in combination `i` exactly when bit
`pos` of `i` is set. -/
theorem optional_bit_mem_subsetFields (bf : List ShapeField) (i pos idx : Nat)
    (fld : ShapeField) (hnames : (bf.map (fun f => f.name)).Nodup)
    (hpos : (optionalFieldIndices bf)[pos]? = some idx)
    (hget : bf[idx]? = some fld) :
    (fld.name ∈ (subsetFields bf (optionalFieldIndices bf) i).map
        (fun fl => fl.name)) ↔ bitSet i pos = true := by
  obtain ⟨hplen, hpget⟩ := List.getElem?_eq_some.mp hpos
  obtain ⟨hilen, higet⟩ := List.getElem?_eq_some.mp hget
  have hreq : fld.is_required = false := by
    have hmemi : idx ∈ optionalFieldIndices bf := hpget ▸ List.getElem_mem hplen
    obtain ⟨fld', hget', hreq'⟩ := (mem_optionalFieldIndices bf idx).mp hmemi
    rw [hget] at hget'
    cases hget'
    exact hreq'
  have hfind : (optionalFieldIndices bf).findIdx? (fun x => x == idx) = some pos := by
    have h := findIdx_self (optionalFieldIndices bf) (optionalFieldIndices_nodup bf)
      pos hplen
    simp only [List.get_eq_getElem, hpget] at h
    exact h
  constructor
  · intro hmem
    rw [List.mem_map] at hmem
    obtain ⟨fl, hfl, hname⟩ := hmem
    unfold subsetFields at hfl
    rw [List.mem_flatMap] at hfl
    obtain ⟨⟨j, fld'⟩, hmem', hin⟩ := hfl
    have hget' : bf[j]? = some fld' := List.mk_mem_enum_iff_getElem?.mp hmem'
    obtain ⟨hjlen, hjget⟩ := List.getElem?_eq_some.mp hget'
    have hnm : fld'.name = fld.name := by
      cases hreq' : fld'.is_required with
      | true =>
        simp [hreq'] at hin
        rw [← hin]
        exact hname
      | false =>
        simp [hreq'] at hin
        unfold includeOptionalField at hin
        rcases hfi : (optionalFieldIndices bf).findIdx? (fun x => x == j) with _ | pos'
        · rw [hfi] at hin; simp at hin
        · rw [hfi] at hin
          cases hbit : bitSet i pos' with
          | true =>
            simp [hbit] at hin
            rw [hin] at hname
            simpa using hname
          | false => simp [hbit] at hin
    have hj : j = idx := by
      have hjlen2 : j < (bf.map (fun f => f.name)).length := by simpa using hjlen
      have hilen2 : idx < (bf.map (fun f => f.name)).length := by simpa using hilen
      have h1 : (bf.map (fun f => f.name)).get ⟨j, hjlen2⟩ =
          (bf.map (fun f => f.name)).get ⟨idx, hilen2⟩ := by
        simp only [List.get_eq_getElem, List.getElem_map]
        rw [hjget, higet, hnm]
      simp only [List.get_eq_getElem] at h1
      exact (List.Nodup.getElem_inj_iff hnames).mp h1
    subst hj
    rw [hjget] at higet
    subst higet
    simp [hreq] at hin
    unfold includeOptionalField at hin
    rw [hfind] at hin
    cases hbit : bitSet i pos with
    | true => rfl
    | false => simp [hbit] at hin
  · intro hbit
    rw [List.mem_map]
    refine ⟨{ name := fld.name, field_type := unwrap_option_type fld.field_type,
              is_required := true }, ?_, rfl⟩
    unfold subsetFields
    rw [List.mem_flatMap]
    refine ⟨(idx, fld), List.mk_mem_enum_iff_getElem?.mpr hget, ?_⟩
    simp only [hreq]
    unfold includeOptionalField
    rw [hfind]
    simp [hbit]

/-- With duplicate-free field names, distinct combination numbers below
`2 ^ (number of optional fields)` produce distinct field lists. -/
theorem subsetFields_injOn (bf : List ShapeField)
    (hnames : (bf.map (fun f => f.name)).Nodup) (i j : Nat)
    (hi : i < 2 ^ (optionalFieldIndices bf).length)
    (hj : j < 2 ^ (optionalFieldIndices bf).length)
    (heq : subsetFields bf (optionalFieldIndices bf) i =
      subsetFields bf (optionalFieldIndices bf) j) : i = j := by
  apply Nat.eq_of_testBit_eq
  intro pos
  by_cases hp : pos < (optionalFieldIndices bf).length
  · have hpos : (optionalFieldIndices bf)[pos]? =
        some ((optionalFieldIndices bf).get ⟨pos, hp⟩) := by
      simp
    have hmemi : (optionalFieldIndices bf).get ⟨pos, hp⟩ ∈ optionalFieldIndices bf :=
      List.get_mem _ _ _
    obtain ⟨fld, hget, -⟩ :=
      (mem_optionalFieldIndices bf ((optionalFieldIndices bf).get ⟨pos, hp⟩)).mp hmemi
    have h1 := optional_bit_mem_subsetFields bf i pos _ fld hnames hpos hget
    have h2 := optional_bit_mem_subsetFields bf j pos _ fld hnames hpos hget
    rw [heq] at h1
    rw [← bitSet_eq_testBit, ← bitSet_eq_testBit]
    exact Bool.eq_iff_iff.mpr (h1.symm.trans h2)
  · rw [Nat.testBit_lt_two_pow
        (lt_of_lt_of_le hi (Nat.pow_le_pow_right (by norm_num) (le_of_not_lt hp))),
      Nat.testBit_lt_two_pow
        (lt_of_lt_of_le hj (Nat.pow_le_pow_right (by norm_num) (le_of_not_lt hp)))]

/-- C2: for a field list with `k` optional fields, pairwise-distinct field
names, and no field whose (unwrapped) type names a known untagged enum,
`expand_struct_shapes` succeeds and returns exactly `2 ^ k` pairwise-distinct
shapes; in every returned shape each field is marked required and stems from
an input field, with its optional wrapper unwrapped when the source field was
optional; every required input field occurs by name in every returned shape;
and with zero optional fields the single returned shape carries the input
fields unchanged. -/
theorem expand_struct_shapes_optional_expansion
    (kt : KnownTypes) (fields : List FieldInfo) (fuel k : Nat)
    (hun : ∀ f ∈ fields, lookupUntaggedEnum kt (effFieldType f) = none)
    (hnames : (fields.map (fun f => f.name)).Nodup)
    (hk : k = (fields.filter (fun f => f.is_optional)).length)
    (hfuel : fields.length ≤ fuel) :
    ∃ res, expand_struct_shapes (fuel + 1) kt fields = some res ∧
      res.length = 2 ^ k ∧ res.Nodup ∧
      (∀ s ∈ res, ∀ fl ∈ s.fields,
        fl.is_required = true ∧
        ∃ f ∈ fields, fl.name = f.name ∧
          fl.field_type = (if f.is_optional then unwrap_option_type f.field_type
            else f.field_type)) ∧
      (∀ s ∈ res, ∀ f ∈ fields, f.is_optional = false →
        f.name ∈ s.fields.map (fun fl => fl.name)) ∧
      (k = 0 → res = [{ fields := fields.map mkBaseField, metadata := metadataNew }]) := by
  classical
  set bf := fields.map mkBaseField with hbf
  have hcomp : ((fun f : ShapeField => f.name) ∘ mkBaseField) =
      (fun f : FieldInfo => f.name) := rfl
  have hnames2 : (bf.map (fun f => f.name)).Nodup := by
    rw [hbf, List.map_map, hcomp]; exact hnames
  have hk2 : (optionalFieldIndices bf).length = k := by
    rw [optionalFieldIndices_length, hbf, List.filter_map, List.length_map]
    have hc2 : ((fun f : ShapeField => !f.is_required) ∘ mkBaseField) =
        (fun f : FieldInfo => f.is_optional) := by
      funext f; simp [mkBaseField]
    rw [hc2, hk]
  have hexp : expandOptionalCombos { fields := bf, metadata := metadataNew } =
      (if (optionalFieldIndices bf).isEmpty then
        [{ fields := bf, metadata := metadataNew }]
       else (List.range (1 <<< (optionalFieldIndices bf).length)).map (fun i =>
         ({ fields := subsetFields bf (optionalFieldIndices bf) i,
            metadata := metadataNew } : Shape))) := rfl
  by_cases hemp : (optionalFieldIndices bf).isEmpty = true
  · have hopt : optionalFieldIndices bf = [] := List.isEmpty_iff.mp hemp
    have hk0 : k = 0 := by rw [← hk2, hopt]; rfl
    have hres : expandOptionalCombos { fields := bf, metadata := metadataNew } =
        [{ fields := bf, metadata := metadataNew }] := by
      rw [hexp, if_pos hemp]
    have hallreq : ∀ f ∈ fields, f.is_optional = false := by
      intro f hf
      have hfil : bf.filter (fun f => !f.is_required) = [] := by
        have hl := optionalFieldIndices_length bf
        rw [hopt] at hl
        exact List.length_eq_zero.mp hl.symm
      have hmm := List.filter_eq_nil_iff.mp hfil (mkBaseField f)
        (List.mem_map_of_mem _ hf)
      simpa [mkBaseField] using hmm
    refine ⟨_, expand_struct_shapes_plain kt fields fuel hun hfuel, ?_, ?_, ?_, ?_, ?_⟩
    · rw [hres, hk0]; rfl
    · rw [hres]; simp
    · rw [hres]
      intro s hs fl hfl
      rw [List.mem_singleton] at hs
      subst hs
      have hfl2 : fl ∈ List.map mkBaseField fields := hfl
      obtain ⟨f, hf, rfl⟩ := List.mem_map.mp hfl2
      have hfo := hallreq f hf
      exact ⟨by simp [mkBaseField, hfo], f, hf, rfl, by simp [mkBaseField, hfo]⟩
    · rw [hres]
      intro s hs f hf _
      rw [List.mem_singleton] at hs
      subst hs
      exact List.mem_map.mpr ⟨mkBaseField f, List.mem_map_of_mem _ hf, rfl⟩
    · intro _
      exact hres
  · have hres : expandOptionalCombos { fields := bf, metadata := metadataNew } =
        (List.range (1 <<< (optionalFieldIndices bf).length)).map (fun i =>
          ({ fields := subsetFields bf (optionalFieldIndices bf) i,
             metadata := metadataNew } : Shape)) := by
      rw [hexp, if_neg hemp]
    refine ⟨_, expand_struct_shapes_plain kt fields fuel hun hfuel, ?_, ?_, ?_, ?_, ?_⟩
    · rw [hres, List.length_map, List.length_range, Nat.one_shiftLeft, hk2]
    · rw [hres]
      apply List.Nodup.map_on ?_ (List.nodup_range _)
      intro x hx y hy hxy
      rw [List.mem_range, Nat.one_shiftLeft] at hx hy
      have hfe : subsetFields bf (optionalFieldIndices bf) x =
          subsetFields bf (optionalFieldIndices bf) y := by
        have hcg := congrArg Shape.fields hxy
        simpa using hcg
      exact subsetFields_injOn bf hnames2 x y hx hy hfe
    · rw [hres]
      intro s hs fl hfl
      obtain ⟨i, hi, rfl⟩ := List.mem_map.mp hs
      obtain ⟨fld, hfld, hcase⟩ := mem_subsetFields bf _ i fl hfl
      have hfld2 : fld ∈ List.map mkBaseField fields := hfld
      obtain ⟨f, hf, rfl⟩ := List.mem_map.mp hfld2
      rcases hcase with ⟨hreq, rfl⟩ | ⟨hreq, rfl⟩
      · have hfo : f.is_optional = false := by simpa [mkBaseField] using hreq
        exact ⟨hreq, f, hf, rfl, by simp [mkBaseField, hfo]⟩
      · have hfo : f.is_optional = true := by simpa [mkBaseField] using hreq
        exact ⟨rfl, f, hf, rfl, by simp [mkBaseField, hfo]⟩
    · rw [hres]
      intro s hs f hf hfo
      obtain ⟨i, hi, rfl⟩ := List.mem_map.mp hs
      obtain ⟨j, hj⟩ := List.mem_iff_getElem?.mp hf
      have hgetbf : bf[j]? = some (mkBaseField f) := by
        rw [hbf, List.getElem?_map, hj]; rfl
      have hreq : (mkBaseField f).is_required = true := by simp [mkBaseField, hfo]
      have hmem := required_mem_subsetFields bf (optionalFieldIndices bf) i j _
        hgetbf hreq
      exact List.mem_map.mpr ⟨mkBaseField f, hmem, rfl⟩
    · intro hk0
      exfalso
      have hlen0 : (optionalFieldIndices bf).length = 0 := by rw [hk2, hk0]
      exact hemp (List.isEmpty_iff_length_eq_zero.mpr hlen0)

/-- Witness for `expand_struct_shapes_optional_expansion` at a concrete
three-field record with two optional fields. -/
theorem expand_struct_shapes_optional_expansion_witness :
    ∃ res, expand_struct_shapes 4 [] c2Fields = some res ∧
      res.length = 2 ^ 2 ∧ res.Nodup ∧
      (∀ s ∈ res, ∀ fl ∈ s.fields,
        fl.is_required = true ∧
        ∃ f ∈ c2Fields, fl.name = f.name ∧
          fl.field_type = (if f.is_optional then unwrap_option_type f.field_type
            else f.field_type)) ∧
      (∀ s ∈ res, ∀ f ∈ c2Fields, f.is_optional = false →
        f.name ∈ s.fields.map (fun fl => fl.name)) ∧
      (2 = 0 → res = [{ fields := c2Fields.map mkBaseField, metadata := metadataNew }]) :=
  expand_struct_shapes_optional_expansion [] c2Fields 3 2 (by decide) (by decide)
    (by decide) (by decide)
